import Mathlib

/-!
# Network remote settings page (Clementine, `src/ui/networkremotesettingspage.cpp`)

A shallow embedding of the configuration logic of `NetworkRemoteSettingsPage`:
the constructor (preset catalog), `Load` and `Save`.

Conventions of the embedding.

* A `QString` is the sequence of its UTF-16 code units (`QChar`), each a natural number;
  `size()` is the length of the sequence.
* The `QSettings` group `network_remote` is a record with one optional value per key
  (`none`: the key is absent), each of the type `Save` writes under that key.
* The widgets of the form are records holding the value last set on them.
* `qrand()` is explicit state passing over `QRand`.
-/

set_option autoImplicit false

/-! ## Qt strings -/

/-- One UTF-16 code unit of a `QString`. -/
abbrev QChar := Nat

/-- A `QString`: its code units in order. -/
abbrev QString := List QChar

/-- The `QString` of a string literal (code point by code point, exact for literals of the
Basic Multilingual Plane, the only ones used below). -/
def qs (s : String) : QString := s.toList.map Char.toNat

/-- `QChar::isSpace`: the ASCII white space `\t \n \v \f \r` and space, `U+0085`, `U+00A0`, and
the characters of the Unicode separator categories `Zs`, `Zl`, `Zp`. -/
def isSpace (c : QChar) : Bool :=
  c == 0x20 || (0x09 ≤ c && c ≤ 0x0d) || c == 0x85 || c == 0xa0 || c == 0x1680 ||
  (0x2000 ≤ c && c ≤ 0x200a) || c == 0x2028 || c == 0x2029 || c == 0x202f ||
  c == 0x205f || c == 0x3000

/-- `QString::trimmed`: first the white space at the end is skipped, then the white space at the
start (`trimmed_helper_positions`). -/
def trimmed (s : QString) : QString :=
  ((s.reverse.dropWhile isSpace).reverse).dropWhile isSpace

/-- The scan of `QString::split(sep)` for a one-character separator and the default
`KeepEmptyParts`: `cur` is the piece being read, in reverse; every separator closes a piece and the
end of the text closes the last one, so the empty text gives one empty piece. -/
def splitAux (sep : QChar) : QString → QString → List QString
  | [], cur => [cur.reverse]
  | c :: rest, cur =>
    if c = sep then cur.reverse :: splitAux sep rest [] else splitAux sep rest (c :: cur)

/-- `QString::split(sep)` with a one-character separator. -/
def split (s : QString) (sep : QChar) : List QString := splitAux sep s []

/-- `QStringList::join(sep)`. -/
def join (sep : QString) : List QString → QString
  | [] => []
  | [x] => x
  | x :: y :: rest => x ++ sep ++ join sep (y :: rest)

/-- The code unit of `,`. -/
def comma : QChar := 44

/-! ## The extension list written by `Save` -/

/-- One turn of the loop of `Save` over the pieces of the extension text:
`ext = extension.trimmed(); if (ext.size() > 0 && ext.size() < 8) files_music_extensions << ext`. -/
def appendExtension (files_music_extensions : List QString) (extension : QString) :
    List QString :=
  let ext := trimmed extension
  if ext.length > 0 ∧ ext.length < 8 then files_music_extensions ++ [ext]
  else files_music_extensions

/-- The list `Save` stores under `files_music_extensions`, from the text of the line edit:
the loop over `text().split(",")`, starting from the empty list. -/
def Parse (text : QString) : List QString :=
  (split text comma).foldl appendExtension []

/-! ## `std::sort` (libstdc++ `bits/stl_algo.h`, `bits/stl_heap.h`)

The constructor sorts the presets with `std::sort`. The functions below follow the GNU
implementation: an introsort loop (median-of-three quicksort that falls back to heap sort when the
depth limit is reached) over ranges longer than 16, then one pass of insertion sort. The array is a
list, iterators are positions in it, and each loop is a recursion on a number that bounds its
turns (the theorems named `_fuel` show that a larger bound gives the same result). A read outside
the array ends the loop that made it: the C++ code makes no such read. -/

section StdSort

variable {α : Type}

/-- `std::iter_swap`: exchanges the elements at two positions. -/
def iter_swap (a : List α) (i j : Nat) : List α :=
  match a[i]?, a[j]? with
  | some x, some y => (a.set i y).set j x
  | _, _ => a

/-- The comparison `comp(i, j)` of the elements at positions `i` and `j`. -/
def compAt (comp : α → α → Bool) (a : List α) (i j : Nat) : Bool :=
  match a[i]?, a[j]? with
  | some x, some y => comp x y
  | _, _ => false

/-- `std::__move_median_to_first`: swaps the median of the elements at `a`, `b`, `c` to
`result`. -/
def move_median_to_first (comp : α → α → Bool) (arr : List α) (result a b c : Nat) : List α :=
  if compAt comp arr a b then
    if compAt comp arr b c then iter_swap arr result b
    else if compAt comp arr a c then iter_swap arr result c
    else iter_swap arr result a
  else if compAt comp arr a c then iter_swap arr result a
  else if compAt comp arr b c then iter_swap arr result c
  else iter_swap arr result b

/-- The inner loop `while (comp(first, pivot)) ++first;` of `__unguarded_partition`; returns the
final `first`. -/
def scan_up (comp : α → α → Bool) (a : List α) (pivot : Nat) : Nat → Nat → Nat
  | 0, first => first
  | fuel + 1, first =>
    if compAt comp a first pivot then scan_up comp a pivot fuel (first + 1) else first

/-- The inner loop `while (comp(pivot, last)) --last;` of `__unguarded_partition`, by recursion
on `last`; returns the final `last`. -/
def scan_down (comp : α → α → Bool) (a : List α) (pivot : Nat) : Nat → Nat
  | 0 => 0
  | last + 1 =>
    if compAt comp a pivot (last + 1) then scan_down comp a pivot last else last + 1

/-- `std::__unguarded_partition(first, last, pivot)`: returns the array and the cut. Each turn of
the outer loop moves `first` up and `last` down, so `last - first` turns are enough. -/
def unguarded_partition (comp : α → α → Bool) (pivot : Nat) :
    Nat → List α → Nat → Nat → List α × Nat
  | 0, a, first, _ => (a, first)
  | fuel + 1, a, first, last =>
    let first1 := scan_up comp a pivot (a.length - first) first
    let last1 := scan_down comp a pivot (last - 1)
    if first1 < last1 then
      unguarded_partition comp pivot fuel (iter_swap a first1 last1) (first1 + 1) last1
    else (a, first1)

/-- `std::__unguarded_partition_pivot(first, last)`. -/
def unguarded_partition_pivot (comp : α → α → Bool) (a : List α) (first last : Nat) :
    List α × Nat :=
  let mid := first + (last - first) / 2
  let a1 := move_median_to_first comp a first (first + 1) mid (last - 1)
  unguarded_partition comp first (last - first) a1 (first + 1) last

/-- `std::__push_heap(first, holeIndex, topIndex, value)`: the hole moves up to its parent while
the parent is less than `value`; `value` is written into the final hole. -/
def push_heap (comp : α → α → Bool) (first topIndex : Nat) (value : α) :
    Nat → List α → Nat → List α
  | 0, a, holeIndex => a.set (first + holeIndex) value
  | fuel + 1, a, holeIndex =>
    let parent := (holeIndex - 1) / 2
    match a[first + parent]? with
    | some p =>
      if holeIndex > topIndex ∧ comp p value then
        push_heap comp first topIndex value fuel (a.set (first + holeIndex) p) parent
      else a.set (first + holeIndex) value
    | none => a.set (first + holeIndex) value

/-- The first loop of `std::__adjust_heap`: the hole moves down to its larger child while
`secondChild < (len - 1) / 2`; returns the array and the hole. -/
def adjust_heap_down (comp : α → α → Bool) (first len : Nat) :
    Nat → List α → Nat → List α × Nat
  | 0, a, holeIndex => (a, holeIndex)
  | fuel + 1, a, holeIndex =>
    if holeIndex < (len - 1) / 2 then
      let secondChild := 2 * (holeIndex + 1)
      let secondChild :=
        if compAt comp a (first + secondChild) (first + (secondChild - 1)) then secondChild - 1
        else secondChild
      match a[first + secondChild]? with
      | some x => adjust_heap_down comp first len fuel (a.set (first + holeIndex) x) secondChild
      | none => (a, holeIndex)
    else (a, holeIndex)

/-- `std::__adjust_heap(first, holeIndex, len, value)`. The test
`(len & 1) == 0 && secondChild == (len - 2) / 2` is on signed numbers: for `len < 2` it is false,
which `2 ≤ len` states over the naturals. -/
def adjust_heap (comp : α → α → Bool) (a : List α) (first holeIndex len : Nat) (value : α) :
    List α :=
  let topIndex := holeIndex
  let down := adjust_heap_down comp first len len a holeIndex
  let last :=
    if len % 2 = 0 ∧ 2 ≤ len ∧ down.2 = (len - 2) / 2 then
      let secondChild := 2 * (down.2 + 1)
      match down.1[first + (secondChild - 1)]? with
      | some x => (down.1.set (first + down.2) x, secondChild - 1)
      | none => down
    else down
  push_heap comp first topIndex value len last.1 last.2

/-- `std::__pop_heap(first, last, result)`. -/
def pop_heap (comp : α → α → Bool) (a : List α) (first last result : Nat) : List α :=
  match a[result]?, a[first]? with
  | some value, some top => adjust_heap comp (a.set result top) first 0 (last - first) value
  | _, _ => a

/-- The loop of `std::__make_heap`, from `parent` down to 0. -/
def make_heap_loop (comp : α → α → Bool) (first len : Nat) : Nat → List α → List α
  | parent, a =>
    match a[first + parent]? with
    | some value =>
      let a1 := adjust_heap comp a first parent len value
      match parent with
      | 0 => a1
      | p + 1 => make_heap_loop comp first len p a1
    | none => a

/-- `std::__make_heap(first, last)`. -/
def make_heap (comp : α → α → Bool) (a : List α) (first last : Nat) : List α :=
  if last - first < 2 then a
  else make_heap_loop comp first (last - first) ((last - first - 2) / 2) a

/-- The loop of `std::__heap_select` over `i` in `[middle, last)`. -/
def heap_select_loop (comp : α → α → Bool) (first middle : Nat) : Nat → List α → Nat → List α
  | 0, a, _ => a
  | fuel + 1, a, i =>
    let a1 := if compAt comp a i first then pop_heap comp a first middle i else a
    heap_select_loop comp first middle fuel a1 (i + 1)

/-- `std::__heap_select(first, middle, last)`. -/
def heap_select (comp : α → α → Bool) (a : List α) (first middle last : Nat) : List α :=
  heap_select_loop comp first middle (last - middle) (make_heap comp a first middle) middle

/-- `std::__sort_heap(first, last)`, by recursion on `last - first`. -/
def sort_heap (comp : α → α → Bool) (first : Nat) : Nat → List α → List α
  | 0, a => a
  | n + 1, a =>
    if n + 1 > 1 then sort_heap comp first n (pop_heap comp a first (first + n) (first + n))
    else a

/-- `std::__partial_sort(first, middle, last)`. -/
def partial_sort (comp : α → α → Bool) (a : List α) (first middle last : Nat) : List α :=
  sort_heap comp first (middle - first) (heap_select comp a first middle last)

/-- `std::__introsort_loop(first, last, depth_limit)`, by recursion on `depth_limit`: the
recursive call sorts `[cut, last)` and the next turn of the loop continues on `[first, cut)`. -/
def introsort_loop (comp : α → α → Bool) : Nat → List α → Nat → Nat → List α
  | depth_limit, a, first, last =>
    if last - first > 16 then
      match depth_limit with
      | 0 => partial_sort comp a first last last
      | d + 1 =>
        let cut := unguarded_partition_pivot comp a first last
        introsort_loop comp d (introsort_loop comp d cut.1 cut.2 last) first cut.2
    else a

/-- The loop of `std::__unguarded_linear_insert`: `next + 1` is the hole; the element before the
hole moves into it while `val` is less than that element. -/
def unguarded_linear_insert_loop (comp : α → α → Bool) (val : α) : Nat → List α → List α
  | 0, a => a.set 0 val
  | next + 1, a =>
    match a[next]? with
    | some x =>
      if comp val x then unguarded_linear_insert_loop comp val next (a.set (next + 1) x)
      else a.set (next + 1) val
    | none => a.set (next + 1) val

/-- `std::__unguarded_linear_insert(last)`. -/
def unguarded_linear_insert (comp : α → α → Bool) (a : List α) (last : Nat) : List α :=
  match a[last]? with
  | some val => unguarded_linear_insert_loop comp val last a
  | none => a

/-- `std::move_backward(first, last, d_last)`: the elements of `[first, last)` are copied to the
range that ends at `d_last`. -/
def move_backward (a : List α) (first last d_last : Nat) : List α :=
  a.take (d_last - (last - first)) ++ ((a.drop first).take (last - first) ++ a.drop d_last)

/-- The loop of `std::__insertion_sort` over `i`. -/
def insertion_sort_loop (comp : α → α → Bool) (first : Nat) : Nat → List α → Nat → List α
  | 0, a, _ => a
  | fuel + 1, a, i =>
    let a1 :=
      if compAt comp a i first then
        match a[i]? with
        | some val => (move_backward a first i (i + 1)).set first val
        | none => a
      else unguarded_linear_insert comp a i
    insertion_sort_loop comp first fuel a1 (i + 1)

/-- `std::__insertion_sort(first, last)`. -/
def insertion_sort (comp : α → α → Bool) (a : List α) (first last : Nat) : List α :=
  if first = last then a else insertion_sort_loop comp first (last - (first + 1)) a (first + 1)

/-- `std::__unguarded_insertion_sort(first, last)`, the loop over `i`. -/
def unguarded_insertion_sort (comp : α → α → Bool) : Nat → List α → Nat → List α
  | 0, a, _ => a
  | fuel + 1, a, i =>
    unguarded_insertion_sort comp fuel (unguarded_linear_insert comp a i) (i + 1)

/-- `std::__final_insertion_sort(first, last)`, with `_S_threshold = 16`. -/
def final_insertion_sort (comp : α → α → Bool) (a : List α) (first last : Nat) : List α :=
  if last - first > 16 then
    unguarded_insertion_sort comp (last - (first + 16))
      (insertion_sort comp a first (first + 16)) (first + 16)
  else insertion_sort comp a first last

/-- The halving loop behind `std::__lg`. -/
def lgAux : Nat → Nat → Nat
  | 0, _ => 0
  | fuel + 1, n => if n ≥ 2 then lgAux fuel (n / 2) + 1 else 0

/-- `std::__lg(n)`: the position of the highest set bit of `n`. -/
def lg (n : Nat) : Nat := lgAux n n

/-- `std::sort(first, last, comp)` over the whole array. -/
def std_sort (comp : α → α → Bool) (a : List α) : List α :=
  if a.length = 0 then a
  else final_insertion_sort comp (introsort_loop comp (lg a.length * 2) a 0 a.length) 0 a.length

end StdSort

/-! ## Presets and the format combo box -/

/-- `QString::compare` on code units (`ucstrcmp`): the first differing code unit decides, and
when one text is a prefix of the other the shorter one is smaller. -/
def ucstrcmp : QString → QString → Ordering
  | [], [] => Ordering.eq
  | [], _ :: _ => Ordering.lt
  | _ :: _, [] => Ordering.gt
  | a :: as, b :: bs =>
    if a < b then Ordering.lt else if b < a then Ordering.gt else ucstrcmp as bs

/-- `operator<(const QString&, const QString&)`. -/
def QString_lt (s1 s2 : QString) : Bool := decide (ucstrcmp s1 s2 = Ordering.lt)

/-- `TranscoderPreset` (declared in `transcoder/transcoder.h`): the encoder token `type_`
(a `Song::FileType`), the display name, the file suffix and the codec mimetype. -/
structure TranscoderPreset where
  type_ : Nat
  name_ : QString
  extension_ : QString
  codec_mimetype_ : QString
  deriving DecidableEq, Repr

/-- The default-constructed `TranscoderPreset`, the value of an invalid `QVariant`:
`Song::Type_Unknown` and empty strings. -/
def TranscoderPreset.null : TranscoderPreset := ⟨0, [], [], []⟩

/-- `ComparePresetsByName`: `left.name_ < right.name_`. -/
def ComparePresetsByName (left right : TranscoderPreset) : Bool :=
  QString_lt left.name_ right.name_

/-- A `QComboBox`: the items (text and user data) and the current index, `-1` when no item is
selected. -/
structure QComboBox where
  items : List (QString × TranscoderPreset)
  currentIndex : Int
  deriving DecidableEq, Repr

/-- A newly created combo box. -/
def QComboBox.empty : QComboBox := ⟨[], -1⟩

/-- `QComboBox::count`. -/
def QComboBox.count (c : QComboBox) : Nat := c.items.length

/-- `QComboBox::addItem(text, userData)`: the item is appended; when the box was empty and had no
current item, the new item becomes the current one (Qt selects the first inserted row). -/
def QComboBox.addItem (c : QComboBox) (text : QString) (userData : TranscoderPreset) :
    QComboBox :=
  { items := c.items ++ [(text, userData)]
    currentIndex := if c.items.length = 0 ∧ c.currentIndex < 0 then 0 else c.currentIndex }

/-- `QComboBox::setCurrentIndex(index)` for the index of an item. -/
def QComboBox.setCurrentIndex (c : QComboBox) (index : Nat) : QComboBox :=
  { c with currentIndex := (index : Int) }

/-- `itemData(index).value<TranscoderPreset>()`: the preset of the item, and the
default-constructed preset for an index that is not one of an item. -/
def QComboBox.itemData (c : QComboBox) (index : Int) : TranscoderPreset :=
  if index < 0 then TranscoderPreset.null
  else match c.items[index.toNat]? with
    | some item => item.2
    | none => TranscoderPreset.null

/-- The text of a preset in the combo box, `QString("%1 (.%2)").arg(name_, extension_)`. -/
def itemText (preset : TranscoderPreset) : QString :=
  preset.name_ ++ qs " (." ++ preset.extension_ ++ qs ")"

/-- The sorted preset list of the constructor: `Transcoder::GetAllPresets()` after
`std::sort(presets.begin(), presets.end(), ComparePresetsByName)`. -/
def All (GetAllPresets : List TranscoderPreset) : List TranscoderPreset :=
  std_sort ComparePresetsByName GetAllPresets

/-- The loop `for (i = 0; i < count(); ++i)` of `Load` that looks for the first item whose
`codec_mimetype_` is `last_output_format`; the first argument is `count() - i`. The result is
the index at which `setCurrentIndex(i); break;` is reached, if any. -/
def findFormat (format : QComboBox) (last_output_format : QString) : Nat → Nat → Option Nat
  | 0, _ => none
  | fuel + 1, i =>
    if last_output_format = (format.itemData (i : Int)).codec_mimetype_ then some i
    else findFormat format last_output_format fuel (i + 1)

/-- The lookup of `Load` from `i = 0`. -/
def IndexOf (format : QComboBox) (codecMimetype : QString) : Option Nat :=
  findFormat format codecMimetype format.count 0

/-! ## Host addresses -/

/-- A `QHostAddress`: an IPv4 address with its 32-bit value, an IPv6 address with its 16 bytes, or
the null address. -/
inductive QHostAddress where
  | ipv4 (a : Nat)
  | ipv6 (a6 : List Nat)
  | null
  deriving DecidableEq, Repr

/-- `QAbstractSocket::NetworkLayerProtocol`. -/
inductive NetworkLayerProtocol where
  | IPv4Protocol
  | IPv6Protocol
  | UnknownNetworkLayerProtocol
  deriving DecidableEq, Repr

/-- `QHostAddress::protocol`. -/
def QHostAddress.protocol : QHostAddress → NetworkLayerProtocol
  | QHostAddress.ipv4 _ => NetworkLayerProtocol.IPv4Protocol
  | QHostAddress.ipv6 _ => NetworkLayerProtocol.IPv6Protocol
  | QHostAddress.null => NetworkLayerProtocol.UnknownNetworkLayerProtocol

/-- `QHostAddress::parseSubnet("127.0.0.1/8")`: the address 127.0.0.1 and the prefix length 8. -/
def loopbackSubnet : QHostAddress × Nat := (QHostAddress.ipv4 0x7F000001, 8)

/-- `QHostAddress::isInSubnet(subnet)`: false when the protocols differ; for IPv4 the leading
`netmask` bits of the two addresses are compared. IPv6 subnets are not used by `Load`. -/
def QHostAddress.isInSubnet (address : QHostAddress) (subnet : QHostAddress × Nat) : Bool :=
  match address, subnet.1 with
  | QHostAddress.ipv4 a, QHostAddress.ipv4 net =>
    decide (subnet.2 ≤ 32 ∧
      (a % 2 ^ 32) / 2 ^ (32 - subnet.2) = (net % 2 ^ 32) / 2 ^ (32 - subnet.2))
  | _, _ => false

/-- `QString::number` of a byte. -/
def byteNumber (n : Nat) : QString :=
  (if 100 ≤ n then [48 + n / 100] else []) ++ (if 10 ≤ n then [48 + n / 10 % 10] else []) ++
    [48 + n % 10]

/-- `QHostAddress::toString` of an IPv4 address: the four bytes in decimal, `.` between them.
The text of other addresses is never asked for by `Load` and is left empty. -/
def QHostAddress.toString : QHostAddress → QString
  | QHostAddress.ipv4 a =>
    byteNumber (a / 2 ^ 24 % 256) ++ qs "." ++ byteNumber (a / 2 ^ 16 % 256) ++ qs "." ++
      byteNumber (a / 2 ^ 8 % 256) ++ qs "." ++ byteNumber (a % 256)
  | _ => []

/-- One turn of the address loop of `Load`. -/
def appendAddress (ip_addresses : QString) (address : QHostAddress) : QString :=
  if address.protocol = NetworkLayerProtocol.IPv4Protocol ∧
      ¬ address.isInSubnet loopbackSubnet = true then
    (if ¬ ip_addresses.isEmpty = true then ip_addresses ++ qs ", " else ip_addresses) ++
      address.toString
  else ip_addresses

/-- The address loop of `Load` over `QNetworkInterface::allAddresses()`, from the empty text. -/
def Scan (allAddresses : List QHostAddress) : QString :=
  allAddresses.foldl appendAddress []

/-! ## Settings, form and random numbers -/

/-- The group `NetworkRemote::kSettingsGroup` of `QSettings`: one optional value per key. -/
structure QSettings where
  use_remote : Option Bool
  port : Option Int
  only_non_public_ip : Option Bool
  use_auth_code : Option Bool
  auth_code : Option Int
  allow_downloads : Option Bool
  convert_lossless : Option Bool
  last_output_format : Option QString
  files_root_folder : Option QString
  files_music_extensions : Option (List QString)
  deriving DecidableEq, Repr

/-- `QSettings::value(key, defaultValue)` followed by the conversion to the type of the key. -/
def QSettings.value {β : Type} (key : Option β) (defaultValue : β) : β := key.getD defaultValue

/-- The widgets of `Ui_NetworkRemoteSettingsPage` that `Load` and `Save` use, each with the value
it holds. The form itself (`networkremotesettingspage.ui`, with the ranges of the two spin boxes)
is outside this source file: a value set on a spin box is held as given. -/
structure Ui_NetworkRemoteSettingsPage where
  use_remote : Bool
  remote_port : Int
  only_non_public_ip : Bool
  use_auth_code : Bool
  auth_code : Int
  allow_downloads : Bool
  convert_lossless : Bool
  format : QComboBox
  files_root_folder : QString
  files_music_extensions : QString
  ip_address : QString
  deriving DecidableEq, Repr

/-- The constants of the application that `Load` refers to and that are defined elsewhere:
`NetworkRemote::kDefaultServerPort` and `Application::kDefaultMusicExtensionsAllowedRemotely`. -/
structure Application where
  kDefaultServerPort : Int
  kDefaultMusicExtensionsAllowedRemotely : List QString

/-- The state of the generator behind `qrand()`: the sequence of numbers it returns, each in
`[0, RAND_MAX]`, and how many of them have been drawn. -/
structure QRand where
  sequence : Nat → Nat
  drawn : Nat

/-- `qrand()`: returns the next number of the sequence and advances the generator. -/
def qrand (r : QRand) : Nat × QRand := (r.sequence r.drawn, { r with drawn := r.drawn + 1 })

/-- The form after `setupUi`: unchecked boxes, empty texts and an empty combo box. -/
def setupUi : Ui_NetworkRemoteSettingsPage :=
  { use_remote := false, remote_port := 0, only_non_public_ip := false, use_auth_code := false,
    auth_code := 0, allow_downloads := false, convert_lossless := false,
    format := QComboBox.empty, files_root_folder := [], files_music_extensions := [],
    ip_address := [] }

/-- The constructor `NetworkRemoteSettingsPage::NetworkRemoteSettingsPage`: the presets are sorted
by name and added to the format combo box in that order. -/
def NetworkRemoteSettingsPage (GetAllPresets : List TranscoderPreset) :
    Ui_NetworkRemoteSettingsPage :=
  { setupUi with
    format := (All GetAllPresets).foldl
      (fun format preset => format.addItem (itemText preset) preset) setupUi.format }

/-- The identifier `Load` reads: `s.value("last_output_format", "audio/x-vorbis").toString()`. -/
def last_output_format (s : QSettings) : QString :=
  QSettings.value s.last_output_format (qs "audio/x-vorbis")

/-- `NetworkRemoteSettingsPage::Load`: the form after the call and the generator after the call.
The default of `auth_code` is an argument of `s.value`, so `qrand()` is called before the key is
looked up. The selection of `format` changes only when the lookup finds an item. The store badge
and the text of the link label, which depend on no setting, are left out. -/
def Load (app : Application) (allAddresses : List QHostAddress) (s : QSettings) (rand : QRand)
    (ui : Ui_NetworkRemoteSettingsPage) : Ui_NetworkRemoteSettingsPage × QRand :=
  let draw := qrand rand
  ({ use_remote := QSettings.value s.use_remote false
     remote_port := QSettings.value s.port app.kDefaultServerPort
     only_non_public_ip := QSettings.value s.only_non_public_ip true
     use_auth_code := QSettings.value s.use_auth_code false
     auth_code := QSettings.value s.auth_code ((draw.1 % 100000 : Nat) : Int)
     allow_downloads := QSettings.value s.allow_downloads false
     convert_lossless := QSettings.value s.convert_lossless false
     format :=
       match IndexOf ui.format (last_output_format s) with
       | some i => ui.format.setCurrentIndex i
       | none => ui.format
     files_root_folder := QSettings.value s.files_root_folder []
     files_music_extensions :=
       join [comma]
         (QSettings.value s.files_music_extensions app.kDefaultMusicExtensionsAllowedRemotely)
     ip_address := Scan allAddresses },
   draw.2)

/-- `NetworkRemoteSettingsPage::Save`: every key of the group is written from the form. The call
of `NetworkRemoteHelper::ReloadSettings` that follows changes neither the group nor the form. -/
def Save (ui : Ui_NetworkRemoteSettingsPage) (s : QSettings) : QSettings :=
  { s with
    port := some ui.remote_port
    use_remote := some ui.use_remote
    only_non_public_ip := some ui.only_non_public_ip
    use_auth_code := some ui.use_auth_code
    auth_code := some ui.auth_code
    allow_downloads := some ui.allow_downloads
    convert_lossless := some ui.convert_lossless
    last_output_format := some (ui.format.itemData ui.format.currentIndex).codec_mimetype_
    files_root_folder := some ui.files_root_folder
    files_music_extensions := some (Parse ui.files_music_extensions) }

/-! ## Sequences of calls -/

/-- The page, the persisted group and the generator, as they stand between two calls. -/
structure PageState where
  ui : Ui_NetworkRemoteSettingsPage
  s : QSettings
  rand : QRand

/-- A call on the page: `Load()` with the addresses the host has at that time, `Save()`, or a call
of `qrand()` from elsewhere in the application. -/
inductive Call where
  | load (allAddresses : List QHostAddress)
  | save
  | qrand

/-- The effect of one call on the state. `Load` writes nothing to the group and `Save` reads the
form. -/
def PageState.call (app : Application) (st : PageState) : Call → PageState
  | Call.load allAddresses =>
    { st with ui := (Load app allAddresses st.s st.rand st.ui).1
              rand := (Load app allAddresses st.s st.rand st.ui).2 }
  | Call.save => { st with s := Save st.ui st.s }
  | Call.qrand => { st with rand := (qrand st.rand).2 }

/-- The effect of a sequence of calls. -/
def PageState.calls (app : Application) (st : PageState) (cs : List Call) : PageState :=
  cs.foldl (PageState.call app) st

/-- The codec mimetype of the selected item, as `Save` reads it. -/
def outputFormatId (ui : Ui_NetworkRemoteSettingsPage) : QString :=
  (ui.format.itemData ui.format.currentIndex).codec_mimetype_

/-- An extension that `Parse` returns unchanged: no comma in it, no white space at either end, and
a length from 1 to 7. -/
def cleanExtension (e : QString) : Prop :=
  comma ∉ e ∧ trimmed e = e ∧ 0 < e.length ∧ e.length < 8

instance : DecidablePred cleanExtension := fun e => by
  unfold cleanExtension; infer_instance

/-! ## Concrete values for the examples -/

/-- The application constants of Clementine used in the examples: port 5500 and the built-in
extension list. -/
def exampleApp : Application :=
  { kDefaultServerPort := 5500
    kDefaultMusicExtensionsAllowedRemotely :=
      [qs "aac", qs "alac", qs "flac", qs "m3u", qs "m4a", qs "mp3", qs "ogg", qs "wav",
        qs "wma"] }

/-- A group in which no key is present. -/
def emptySettings : QSettings :=
  { use_remote := none, port := none, only_non_public_ip := none, use_auth_code := none,
    auth_code := none, allow_downloads := none, convert_lossless := none,
    last_output_format := none, files_root_folder := none, files_music_extensions := none }

/-- A generator that returns 0, 1, 2, ... -/
def countingRand : QRand := { sequence := fun n => n, drawn := 0 }

/-- Two presets, neither with the codec mimetype `audio/x-vorbis`. -/
def examplePresets : List TranscoderPreset :=
  [ { type_ := 5, name_ := qs "MP3", extension_ := qs "mp3", codec_mimetype_ := qs "audio/mpeg" },
    { type_ := 2, name_ := qs "Flac", extension_ := qs "flac",
      codec_mimetype_ := qs "audio/x-flac" } ]

/-- A newly constructed form, an empty group and the counting generator. -/
def freshState : PageState := { ui := setupUi, s := emptySettings, rand := countingRand }

/-- The preset of the selected item, as `Save` and `Options` read it. -/
def outputPreset (ui : Ui_NetworkRemoteSettingsPage) : TranscoderPreset :=
  ui.format.itemData ui.format.currentIndex

/-- A group in which only `last_output_format` is present, with an identifier that no preset of
`examplePresets` has. -/
def vorbisSettings : QSettings :=
  { emptySettings with last_output_format := some (qs "audio/x-vorbis") }

/-- A group in which only `files_music_extensions` is present, with one entry of ten characters. -/
def longExtensionSettings : QSettings :=
  { emptySettings with files_music_extensions := some [qs "toolongext"] }

/-- A group in which only `auth_code` is present. -/
def authCodeSettings : QSettings := { emptySettings with auth_code := some 12345 }

/-- The first `MP3` preset of `seventeenPresets`. -/
def mp3First : TranscoderPreset :=
  { type_ := 1, name_ := qs "MP3", extension_ := qs "mp3", codec_mimetype_ := qs "audio/mpeg" }

/-- The second `MP3` preset of `seventeenPresets`. -/
def mp3Second : TranscoderPreset :=
  { type_ := 2, name_ := qs "MP3", extension_ := qs "mp3", codec_mimetype_ := qs "audio/mpeg" }

/-- Seventeen presets in the order the transcoder lists them: two presets named `MP3` with
different encoder tokens, followed by fifteen presets with other names. -/
def seventeenPresets : List TranscoderPreset :=
  [mp3First, mp3Second] ++ [qs "A", qs "B", qs "C", qs "D", qs "E", qs "F", qs "G", qs "H", qs "I", qs "J", qs "K",
      qs "L", qs "N", qs "O", qs "P"].map
      (fun name => { type_ := 0, name_ := name, extension_ := name, codec_mimetype_ := name })

/-! ## Insertion in list form -/

section Insertion

variable {α : Type}

/-- The loop of `__unguarded_linear_insert` on the elements before the hole, listed from the
hole backwards: `val` passes every element it is less than and stops before the first one it is
not less than. -/
def insertRev (comp : α → α → Bool) (val : α) : List α → List α
  | [] => [val]
  | x :: xs => if comp val x then x :: insertRev comp val xs else val :: x :: xs

/-- The sorted range after `__unguarded_linear_insert` has put `val` into the range `pre`. -/
def linear_insert (comp : α → α → Bool) (pre : List α) (val : α) : List α :=
  (insertRev comp val pre.reverse).reverse

/-- One turn of the loop of `__insertion_sort` on the range `pre` before `val`: `val` goes to the
front when it is less than the first element, and is inserted from the back otherwise. -/
def insert_step (comp : α → α → Bool) (pre : List α) (val : α) : List α :=
  match pre with
  | [] => [val]
  | x :: _ => if comp val x then val :: pre else linear_insert comp pre val

/-- The element order `comp` induces is a strict weak order: irreflexive, transitive, and an
element less than another is less than, or has below it, any third one. -/
structure StrictWeakOrder (comp : α → α → Bool) : Prop where
  irrefl : ∀ x, comp x x = false
  trans : ∀ x y z, comp x y = true → comp y z = true → comp x z = true
  split : ∀ x y z, comp x z = true → comp x y = true ∨ comp y z = true

/-- The order of the array after `std::sort`: no element is less than an earlier one. -/
def SortedBy (comp : α → α → Bool) (l : List α) : Prop :=
  l.Pairwise (fun x y => comp y x = false)

/-- Two elements are equivalent for `comp` when neither is less than the other. -/
def equiv (comp : α → α → Bool) (x y : α) : Bool := !comp x y && !comp y x

end Insertion

/-! ## Definitions used to state the properties -/

/-- The test of the specification on a trimmed piece: its length is strictly between 0 and 8. -/
def keepExtension (p : QString) : Bool := decide (0 < p.length ∧ p.length < 8)

/-- An address that the specification keeps: IPv4 and not in `127.0.0.0/8`, that is, its leading
byte is not 127. -/
def qualifies (address : QHostAddress) : Bool :=
  match address with
  | QHostAddress.ipv4 a => decide (a % 2 ^ 32 / 2 ^ 24 ≠ 127)
  | _ => false

/-! # Theorems -/

/-! ## The extension list (C1) and the lookup (C5) -/

theorem foldl_appendExtension (pieces : List QString) (acc : List QString) :
    pieces.foldl appendExtension acc = acc ++ (pieces.map trimmed).filter keepExtension := by
  induction pieces generalizing acc with
  | nil => simp
  | cons p ps ih =>
    rw [List.foldl_cons, ih]
    by_cases h : 0 < (trimmed p).length ∧ (trimmed p).length < 8
    · simp [appendExtension, keepExtension, h, List.filter_cons]
    · simp [appendExtension, keepExtension, h, List.filter_cons]

theorem Parse_eq (raw : QString) :
    Parse raw = ((split raw comma).map trimmed).filter keepExtension := by
  simp [Parse, foldl_appendExtension]

/-- C1: for every text, the list `Save` stores under `files_music_extensions` is the sequence of
the pieces of the text between commas, each trimmed, of which exactly those with a length
strictly between 0 and 8 are kept, in their order; so every stored entry has a length from 1 to
7, a piece of trimmed length 1 or 7 is stored, and a piece of trimmed length 8 is not. -/
theorem Parse_spec (raw : QString) :
    Parse raw = ((split raw comma).map trimmed).filter
      (fun p => decide (0 < p.length ∧ p.length < 8)) ∧
    (∀ e ∈ Parse raw, 0 < e.length ∧ e.length < 8) ∧
    (∀ p ∈ split raw comma,
      ((trimmed p).length = 1 ∨ (trimmed p).length = 7 → trimmed p ∈ Parse raw) ∧
      ((trimmed p).length = 8 → trimmed p ∉ Parse raw)) := by
  refine ⟨Parse_eq raw, ?_, ?_⟩
  · intro e he
    rw [Parse_eq, List.mem_filter] at he
    simpa [keepExtension] using he.2
  · intro p hp
    constructor
    · intro h
      rw [Parse_eq, List.mem_filter]
      refine ⟨List.mem_map_of_mem _ hp, ?_⟩
      rcases h with h | h <;> simp [keepExtension, h]
    · intro h hmem
      rw [Parse_eq, List.mem_filter] at hmem
      have := hmem.2
      simp [keepExtension, h] at this

/-- C1, on the text of the specification and on the boundary lengths 1, 7 and 8: the entries
`mp3`, `ogg`, `flac` are stored, the empty piece and `toolongext` are not; `a` and `abcdefg` are
stored and `abcdefgh` is not. -/
theorem Parse_witness :
    Parse (qs "mp3, , toolongext, ogg,flac") = [qs "mp3", qs "ogg", qs "flac"] ∧
    Parse (qs "a, abcdefg ,abcdefgh") = [qs "a", qs "abcdefg"] := by
  constructor
  · rw [(Parse_spec (qs "mp3, , toolongext, ogg,flac")).1]; decide
  · rw [(Parse_spec (qs "a, abcdefg ,abcdefgh")).1]; decide

theorem findFormat_some (format : QComboBox) (m : QString) (fuel i k : Nat) :
    findFormat format m fuel i = some k ↔
      i ≤ k ∧ k < i + fuel ∧ (format.itemData (k : Int)).codec_mimetype_ = m ∧
      ∀ j, i ≤ j → j < k → (format.itemData (j : Int)).codec_mimetype_ ≠ m := by
  induction fuel generalizing i with
  | zero => simp [findFormat]; omega
  | succ n ih =>
    unfold findFormat
    by_cases h : m = (format.itemData (i : Int)).codec_mimetype_
    · rw [if_pos h]
      constructor
      · intro hk
        have hk : i = k := by simpa using hk
        subst hk
        exact ⟨le_refl _, by omega, h.symm, fun j h1 h2 => by omega⟩
      · rintro ⟨h1, h2, h3, h4⟩
        rcases Nat.lt_or_ge i k with hlt | hge
        · exact absurd h.symm (h4 i (le_refl _) hlt)
        · have : i = k := by omega
          simp [this]
    · rw [if_neg h, ih]
      constructor
      · rintro ⟨h1, h2, h3, h4⟩
        refine ⟨by omega, by omega, h3, ?_⟩
        intro j hj1 hj2
        rcases Nat.eq_or_lt_of_le hj1 with e | l
        · subst e; exact fun e => h e.symm
        · exact h4 j l hj2
      · rintro ⟨h1, h2, h3, h4⟩
        have hne : i ≠ k := by
          intro e; subst e; exact h h3.symm
        exact ⟨by omega, by omega, h3, fun j hj1 hj2 => h4 j (by omega) hj2⟩

theorem findFormat_none (format : QComboBox) (m : QString) (fuel i : Nat) :
    findFormat format m fuel i = none ↔
      ∀ j, i ≤ j → j < i + fuel → (format.itemData (j : Int)).codec_mimetype_ ≠ m := by
  induction fuel generalizing i with
  | zero => simp [findFormat]; intro j h1 h2; omega
  | succ n ih =>
    unfold findFormat
    by_cases h : m = (format.itemData (i : Int)).codec_mimetype_
    · rw [if_pos h]
      simp only [false_iff, reduceCtorEq]
      intro hall
      exact hall i (le_refl _) (by omega) h.symm
    · rw [if_neg h, ih]
      constructor
      · intro hall j hj1 hj2
        rcases Nat.eq_or_lt_of_le hj1 with e | l
        · subst e; exact fun e => h e.symm
        · exact hall j l (by omega)
      · intro hall j hj1 hj2
        exact hall j (by omega) (by omega)

theorem itemData_natCast (format : QComboBox) (j : Nat) :
    format.itemData (j : Int) =
      match format.items[j]? with
      | some item => item.2
      | none => TranscoderPreset.null := by
  simp [QComboBox.itemData]

/-- C5: for every combo box (so for every catalog, the empty one included) and every codec
mimetype `m`, the lookup of `Load` returns `i` exactly when item `i` exists, has the codec
mimetype `m`, and no item before it has; it returns nothing exactly when no item has the codec
mimetype `m`. -/
theorem IndexOf_spec (format : QComboBox) (m : QString) :
    (∀ i, IndexOf format m = some i ↔
      (∃ item, format.items[i]? = some item ∧ item.2.codec_mimetype_ = m) ∧
      ∀ j, j < i → ∀ item, format.items[j]? = some item → item.2.codec_mimetype_ ≠ m) ∧
    (IndexOf format m = none ↔ ∀ item ∈ format.items, item.2.codec_mimetype_ ≠ m) := by
  constructor
  · intro i
    unfold IndexOf
    rw [findFormat_some]
    constructor
    · rintro ⟨-, h2, h3, h4⟩
      have hi : i < format.items.length := by simpa [QComboBox.count] using h2
      constructor
      · refine ⟨format.items[i], by simp [hi], ?_⟩
        rw [itemData_natCast] at h3
        simpa [hi] using h3
      · intro j hj item hitem
        have := h4 j (Nat.zero_le _) hj
        rw [itemData_natCast, hitem] at this
        exact this
    · rintro ⟨⟨item, hitem, hm⟩, hall⟩
      have hi : i < format.items.length := by
        rcases List.getElem?_eq_some_iff.mp hitem with ⟨h, -⟩
        exact h
      refine ⟨Nat.zero_le _, by simpa [QComboBox.count] using hi, ?_, ?_⟩
      · rw [itemData_natCast, hitem]; exact hm
      · intro j _ hj
        have hj2 : j < format.items.length := by omega
        rw [itemData_natCast]
        have := hall j hj format.items[j] (by simp [hj2])
        simpa [hj2] using this
  · unfold IndexOf
    rw [findFormat_none]
    constructor
    · intro hall item hitem
      rcases List.getElem_of_mem hitem with ⟨j, hj, e⟩
      have := hall j (Nat.zero_le _) (by simpa [QComboBox.count] using hj)
      rw [itemData_natCast] at this
      simp [hj, e] at this
      exact this
    · intro hall j _ hj
      have hj2 : j < format.items.length := by simpa [QComboBox.count] using hj
      rw [itemData_natCast]
      have := hall format.items[j] (List.getElem_mem _)
      simpa [hj2] using this

/-- C5 on the page built from `examplePresets`, whose catalog is `Flac`, `MP3`: the lookup of
`audio/mpeg` returns 1. -/
theorem IndexOf_witness :
    IndexOf (NetworkRemoteSettingsPage examplePresets).format (qs "audio/mpeg") = some 1 :=
  ((IndexOf_spec (NetworkRemoteSettingsPage examplePresets).format (qs "audio/mpeg")).1 1).2
    (by decide)

/-! ## The address scan (C7) -/

theorem byteNumber_ne_nil (n : Nat) : byteNumber n ≠ [] := by
  simp [byteNumber]

theorem toString_ipv4_ne_nil (a : Nat) : (QHostAddress.ipv4 a).toString ≠ [] := by
  simp [QHostAddress.toString, byteNumber_ne_nil]

theorem appendAddress_eq (acc : QString) (address : QHostAddress) :
    appendAddress acc address =
      if qualifies address = true then
        (if acc = [] then acc else acc ++ qs ", ") ++ address.toString
      else acc := by
  cases address with
  | ipv4 a =>
    have h : (QHostAddress.ipv4 a).isInSubnet loopbackSubnet = true ↔ a % 2 ^ 32 / 2 ^ 24 = 127 := by
      simp [QHostAddress.isInSubnet, loopbackSubnet]
    by_cases h127 : a % 2 ^ 32 / 2 ^ 24 = 127
    · simp [appendAddress, qualifies, h, h127, QHostAddress.protocol]
    · by_cases hacc : acc = []
      · simp [appendAddress, qualifies, h, h127, QHostAddress.protocol, hacc]
      · simp [appendAddress, qualifies, h, h127, QHostAddress.protocol, hacc, List.isEmpty_iff]
  | ipv6 a6 => simp [appendAddress, qualifies, QHostAddress.protocol]
  | null => simp [appendAddress, qualifies, QHostAddress.protocol]

theorem join_cons_ne_nil (sep x : QString) (rest : List QString) (h : x ≠ []) :
    join sep (x :: rest) ≠ [] := by
  cases rest with
  | nil => simpa [join] using h
  | cons y ys => simp [join, h]

theorem foldl_appendAddress (l : List QHostAddress) (acc : QString) :
    l.foldl appendAddress acc =
      if acc = [] then join (qs ", ") ((l.filter qualifies).map QHostAddress.toString)
      else if (l.filter qualifies) = [] then acc
      else acc ++ qs ", " ++ join (qs ", ") ((l.filter qualifies).map QHostAddress.toString) := by
  induction l generalizing acc with
  | nil => by_cases h : acc = [] <;> simp [h, join]
  | cons x xs ih =>
    by_cases hq : qualifies x = true
    · have hne : x.toString ≠ [] := by
        cases x with
        | ipv4 a => exact toString_ipv4_ne_nil a
        | ipv6 a6 => simp [qualifies] at hq
        | null => simp [qualifies] at hq
      have e : appendAddress acc x = (if acc = [] then acc else acc ++ qs ", ") ++ x.toString := by
        rw [appendAddress_eq, if_pos hq]
      have hne2 : (if acc = [] then acc else acc ++ qs ", ") ++ x.toString ≠ [] := by
        simp [hne]
      have hf : (x :: xs).filter qualifies = x :: xs.filter qualifies :=
        List.filter_cons_of_pos hq
      rw [List.foldl_cons, e, ih, if_neg hne2, hf]
      cases hxs : xs.filter qualifies with
      | nil =>
        by_cases h : acc = [] <;> simp [h, join]
      | cons y ys =>
        by_cases h : acc = [] <;> simp [h, join]
    · have e : appendAddress acc x = acc := by
        rw [appendAddress_eq, if_neg hq]
      have hf : (x :: xs).filter qualifies = xs.filter qualifies :=
        List.filter_cons_of_neg hq
      rw [List.foldl_cons, e, ih, hf]

/-- C7: for every list of host addresses, the text `Load` shows is the texts of exactly the
addresses that are IPv4 and outside `127.0.0.0/8`, in the order of the list, with `, ` between
two of them and nowhere else; it is empty when no address qualifies. -/
theorem Scan_spec (allAddresses : List QHostAddress) :
    Scan allAddresses =
      join (qs ", ") ((allAddresses.filter qualifies).map QHostAddress.toString) ∧
    ((∀ address ∈ allAddresses, qualifies address = false) → Scan allAddresses = []) := by
  have h : Scan allAddresses =
      join (qs ", ") ((allAddresses.filter qualifies).map QHostAddress.toString) := by
    simp [Scan, foldl_appendAddress]
  refine ⟨h, ?_⟩
  intro hall
  have : allAddresses.filter qualifies = [] := by
    rw [List.filter_eq_nil_iff]
    intro a ha
    simp [hall a ha]
  rw [h, this]; rfl

/-- C7 on the addresses 127.0.0.1, 192.168.1.5, ::1, 10.0.0.2. -/
theorem Scan_witness :
    Scan [QHostAddress.ipv4 0x7F000001, QHostAddress.ipv4 0xC0A80105,
        QHostAddress.ipv6 [0, 0, 0, 0, 0, 0, 0, 0, 0, 0, 0, 0, 0, 0, 0, 1],
        QHostAddress.ipv4 0x0A000002] = qs "192.168.1.5, 10.0.0.2" := by
  rw [(Scan_spec [QHostAddress.ipv4 0x7F000001, QHostAddress.ipv4 0xC0A80105,
    QHostAddress.ipv6 [0, 0, 0, 0, 0, 0, 0, 0, 0, 0, 0, 0, 0, 0, 0, 1],
    QHostAddress.ipv4 0x0A000002]).1]
  decide

/-! ## Defaults (C8), the auth code (C9, C10) -/

/-- C8: `Load` is a total function, and for each key of the group the widget gets the default
when the key is absent (unchecked, the default server port, checked for `only_non_public_ip`,
unchecked, unchecked, unchecked, the identifier `audio/x-vorbis`, the empty path, the built-in
extension list joined by commas) and the stored value when it is present. The identifier read is
the one looked up in the combo box: when an item has it, that item is selected. -/
theorem Load_defaults (app : Application) (allAddresses : List QHostAddress) (s : QSettings)
    (rand : QRand) (ui : Ui_NetworkRemoteSettingsPage) :
    ((s.use_remote = none → (Load app allAddresses s rand ui).1.use_remote = false) ∧
      ∀ v, s.use_remote = some v → (Load app allAddresses s rand ui).1.use_remote = v) ∧
    ((s.port = none → (Load app allAddresses s rand ui).1.remote_port = app.kDefaultServerPort) ∧
      ∀ v, s.port = some v → (Load app allAddresses s rand ui).1.remote_port = v) ∧
    ((s.only_non_public_ip = none →
        (Load app allAddresses s rand ui).1.only_non_public_ip = true) ∧
      ∀ v, s.only_non_public_ip = some v →
        (Load app allAddresses s rand ui).1.only_non_public_ip = v) ∧
    ((s.use_auth_code = none → (Load app allAddresses s rand ui).1.use_auth_code = false) ∧
      ∀ v, s.use_auth_code = some v → (Load app allAddresses s rand ui).1.use_auth_code = v) ∧
    ((s.allow_downloads = none → (Load app allAddresses s rand ui).1.allow_downloads = false) ∧
      ∀ v, s.allow_downloads = some v →
        (Load app allAddresses s rand ui).1.allow_downloads = v) ∧
    ((s.convert_lossless = none →
        (Load app allAddresses s rand ui).1.convert_lossless = false) ∧
      ∀ v, s.convert_lossless = some v →
        (Load app allAddresses s rand ui).1.convert_lossless = v) ∧
    ((s.last_output_format = none → last_output_format s = qs "audio/x-vorbis") ∧
      (∀ v, s.last_output_format = some v → last_output_format s = v) ∧
      ∀ i, IndexOf ui.format (last_output_format s) = some i →
        (Load app allAddresses s rand ui).1.format.currentIndex = (i : Int) ∧
        outputFormatId (Load app allAddresses s rand ui).1 = last_output_format s) ∧
    ((s.files_root_folder = none → (Load app allAddresses s rand ui).1.files_root_folder = []) ∧
      ∀ v, s.files_root_folder = some v →
        (Load app allAddresses s rand ui).1.files_root_folder = v) ∧
    ((s.files_music_extensions = none →
        (Load app allAddresses s rand ui).1.files_music_extensions =
          join [comma] app.kDefaultMusicExtensionsAllowedRemotely) ∧
      ∀ v, s.files_music_extensions = some v →
        (Load app allAddresses s rand ui).1.files_music_extensions = join [comma] v) := by
  refine ⟨⟨?_, ?_⟩, ⟨?_, ?_⟩, ⟨?_, ?_⟩, ⟨?_, ?_⟩, ⟨?_, ?_⟩, ⟨?_, ?_⟩,
    ⟨?_, ?_, fun i hi => ?_⟩, ⟨?_, ?_⟩, ⟨?_, ?_⟩⟩
  all_goals first
    | (intro v h; simp [Load, QSettings.value, last_output_format, h])
    | (intro h; simp [Load, QSettings.value, last_output_format, h])
    | skip
  have hsome := hi
  unfold IndexOf at hsome
  rw [findFormat_some] at hsome
  simp only [Load, hi, outputFormatId, QComboBox.setCurrentIndex]
  exact ⟨trivial, by simpa [QComboBox.itemData] using hsome.2.2.1⟩

/-- C8 on a group with no key and the constants of Clementine: the port is 5500, private
addresses only is checked, and the extension text is the built-in list joined by commas. -/
theorem Load_defaults_witness :
    (Load exampleApp [] emptySettings countingRand setupUi).1.remote_port = 5500 ∧
    (Load exampleApp [] emptySettings countingRand setupUi).1.only_non_public_ip = true ∧
    (Load exampleApp [] emptySettings countingRand setupUi).1.files_music_extensions =
      qs "aac,alac,flac,m3u,m4a,mp3,ogg,wav,wma" :=
  ⟨(Load_defaults exampleApp [] emptySettings countingRand setupUi).2.1.1 rfl,
   (Load_defaults exampleApp [] emptySettings countingRand setupUi).2.2.1.1 rfl,
   ((Load_defaults exampleApp [] emptySettings countingRand setupUi).2.2.2.2.2.2.2.2.1 rfl).trans
     (by decide)⟩

/-- C9 fails as stated: with `auth_code` persisted as 12345, `Load` shows 12345, but the
generator has been consulted: one more number has been drawn from it. -/
theorem Load_consults_qrand_counterexample :
    authCodeSettings.auth_code = some 12345 ∧
    (Load exampleApp [] authCodeSettings countingRand setupUi).1.auth_code = 12345 ∧
    (Load exampleApp [] authCodeSettings countingRand setupUi).2.drawn ≠ countingRand.drawn := by
  decide

/-- C9 as amended: when `auth_code` is persisted with value `v`, `Load` shows exactly `v`; when
it is absent, `Load` shows the number drawn from the generator modulo 100000, a value in
`[0, 99999]`; in both cases `Load` draws exactly one number from the generator, whose sequence is
otherwise unchanged. -/
theorem Load_auth_code (app : Application) (allAddresses : List QHostAddress) (s : QSettings)
    (rand : QRand) (ui : Ui_NetworkRemoteSettingsPage) :
    (∀ v, s.auth_code = some v → (Load app allAddresses s rand ui).1.auth_code = v) ∧
    (s.auth_code = none →
      (Load app allAddresses s rand ui).1.auth_code =
        ((rand.sequence rand.drawn % 100000 : Nat) : Int) ∧
      0 ≤ (Load app allAddresses s rand ui).1.auth_code ∧
      (Load app allAddresses s rand ui).1.auth_code ≤ 99999) ∧
    (Load app allAddresses s rand ui).2.drawn = rand.drawn + 1 ∧
    (Load app allAddresses s rand ui).2.sequence = rand.sequence := by
  refine ⟨?_, ?_, rfl, rfl⟩
  · intro v h
    simp [Load, QSettings.value, h]
  · intro h
    have e : (Load app allAddresses s rand ui).1.auth_code =
        ((rand.sequence rand.drawn % 100000 : Nat) : Int) := by
      simp [Load, QSettings.value, h, qrand]
    refine ⟨e, ?_, ?_⟩
    · rw [e]; exact Int.natCast_nonneg _
    · rw [e]
      have : rand.sequence rand.drawn % 100000 < 100000 := Nat.mod_lt _ (by norm_num)
      omega

/-- C9 as amended, on a group with `auth_code` 12345 and on a group without it when the
generator returns 1234567. -/
theorem Load_auth_code_witness :
    (Load exampleApp [] authCodeSettings countingRand setupUi).1.auth_code = 12345 ∧
    (Load exampleApp [] emptySettings { sequence := fun _ => 1234567, drawn := 0 }
      setupUi).1.auth_code = 34567 :=
  ⟨(Load_auth_code exampleApp [] authCodeSettings countingRand setupUi).1 12345 rfl,
   ((Load_auth_code exampleApp [] emptySettings { sequence := fun _ => 1234567, drawn := 0 }
      setupUi).2.1 rfl).1⟩

theorem call_auth_code_invariant (app : Application) (c : Int) (st : PageState) (k : Call)
    (h : st.s.auth_code = some c ∧ st.ui.auth_code = c) :
    (st.call app k).s.auth_code = some c ∧ (st.call app k).ui.auth_code = c := by
  cases k with
  | load allAddresses =>
    refine ⟨by simpa [PageState.call] using h.1, ?_⟩
    simp [PageState.call, Load, QSettings.value, h.1]
  | save => simp [PageState.call, Save, h.2]
  | qrand => simpa [PageState.call] using h

theorem calls_auth_code_invariant (app : Application) (c : Int) (cs : List Call) (st : PageState)
    (h : st.s.auth_code = some c ∧ st.ui.auth_code = c) :
    (st.calls app cs).s.auth_code = some c ∧ (st.calls app cs).ui.auth_code = c := by
  induction cs generalizing st with
  | nil => simpa [PageState.calls] using h
  | cons k ks ih =>
    have := ih (st.call app k) (call_auth_code_invariant app c st k h)
    simpa [PageState.calls] using this

/-- C10 fails as stated: from a group without `auth_code`, two calls of `Load` with no `Save`
between them show different codes. -/
theorem auth_code_not_stable_without_Save :
    freshState.s.auth_code = none ∧
    (freshState.calls exampleApp [Call.load [], Call.load []]).ui.auth_code ≠
      (freshState.calls exampleApp [Call.load []]).ui.auth_code := by
  decide

/-- C10 as amended: from a group without `auth_code`, the first `Load` shows a generated code,
and once `Save` has been called after it, a later `Load` shows that same code, whatever calls of
`Load`, `Save` and `qrand` happen in between and whatever the state of the generator. -/
theorem auth_code_stable_after_Save (app : Application) (st : PageState)
    (h : st.s.auth_code = none) (first later : List QHostAddress) (between : List Call) :
    (st.call app (Call.load first)).ui.auth_code =
      ((st.rand.sequence st.rand.drawn % 100000 : Nat) : Int) ∧
    ((((st.call app (Call.load first)).call app Call.save).calls app between).call app
        (Call.load later)).ui.auth_code =
      (st.call app (Call.load first)).ui.auth_code := by
  constructor
  · simp [PageState.call, Load, QSettings.value, h, qrand]
  · have h0 : ((st.call app (Call.load first)).call app Call.save).s.auth_code =
          some (st.call app (Call.load first)).ui.auth_code ∧
        ((st.call app (Call.load first)).call app Call.save).ui.auth_code =
          (st.call app (Call.load first)).ui.auth_code := by
      simp [PageState.call, Save]
    exact (call_auth_code_invariant app _ _ (Call.load later)
      (calls_auth_code_invariant app _ between _ h0)).2

/-- C10 as amended, on a new page, an empty group and the counting generator:
`Load`, `Save`, then `qrand`, `Load`, `Save`, then `Load`. -/
theorem auth_code_stable_after_Save_witness :
    ((((freshState.call exampleApp (Call.load [])).call exampleApp Call.save).calls exampleApp
        [Call.qrand, Call.load [], Call.save]).call exampleApp (Call.load [])).ui.auth_code =
      (freshState.call exampleApp (Call.load [])).ui.auth_code :=
  (auth_code_stable_after_Save exampleApp freshState rfl [] []
    [Call.qrand, Call.load [], Call.save]).2

/-! ## The selection of the output format (C6) -/

theorem foldl_addItem (l : List TranscoderPreset) (c : QComboBox) :
    (l.foldl (fun format preset => format.addItem (itemText preset) preset) c).items =
        c.items ++ l.map (fun preset => (itemText preset, preset)) ∧
    (l.foldl (fun format preset => format.addItem (itemText preset) preset) c).currentIndex =
        if c.items.length = 0 ∧ c.currentIndex < 0 ∧ l ≠ [] then 0 else c.currentIndex := by
  induction l generalizing c with
  | nil => simp
  | cons p ps ih =>
    rw [List.foldl_cons]
    refine ⟨?_, ?_⟩
    · rw [(ih _).1]; simp [QComboBox.addItem]
    · rw [(ih _).2]
      by_cases h : c.items.length = 0 ∧ c.currentIndex < 0
      · simp [QComboBox.addItem, h]
      · have h2 : ¬ (c.items.length = 0 ∧ c.currentIndex < 0 ∧ p :: ps ≠ []) := fun hh =>
          h ⟨hh.1, hh.2.1⟩
        simp only [QComboBox.addItem, if_neg h, if_neg h2]
        simp

theorem constructor_format (GetAllPresets : List TranscoderPreset) :
    (NetworkRemoteSettingsPage GetAllPresets).format.items =
        (All GetAllPresets).map (fun preset => (itemText preset, preset)) ∧
    (NetworkRemoteSettingsPage GetAllPresets).format.currentIndex =
        if All GetAllPresets = [] then -1 else 0 := by
  unfold NetworkRemoteSettingsPage
  refine ⟨?_, ?_⟩
  · simp only []
    rw [(foldl_addItem _ _).1]; simp [setupUi, QComboBox.empty]
  · simp only []
    rw [(foldl_addItem _ _).2]
    by_cases h : All GetAllPresets = [] <;> simp [setupUi, QComboBox.empty, h]

/-- C6 fails as stated: the page is built from the catalog `Flac`, `MP3`, the persisted
identifier `audio/x-vorbis` matches no preset, and after `Load` the current index is 0: the
first entry of the catalog is selected. -/
theorem Load_unmatched_keeps_first_entry :
    vorbisSettings.last_output_format = some (qs "audio/x-vorbis") ∧
    IndexOf (NetworkRemoteSettingsPage examplePresets).format (last_output_format vorbisSettings)
      = none ∧
    (Load exampleApp [] vorbisSettings countingRand
      (NetworkRemoteSettingsPage examplePresets)).1.format.currentIndex = 0 ∧
    (All examplePresets)[0]? = some (outputPreset (Load exampleApp [] vorbisSettings countingRand
      (NetworkRemoteSettingsPage examplePresets)).1) := by
  decide

/-- C6 as amended: when the identifier read from the group matches no item, `Load` leaves the
combo box as it was, so the entry that was selected before the call stays selected; on a newly
constructed page that is the first entry of the catalog (index 0), and no entry only when the
catalog is empty. -/
theorem Load_unmatched_selection (app : Application) (allAddresses : List QHostAddress)
    (s : QSettings) (rand : QRand) (ui : Ui_NetworkRemoteSettingsPage)
    (h : IndexOf ui.format (last_output_format s) = none) :
    (Load app allAddresses s rand ui).1.format = ui.format ∧
    ∀ GetAllPresets, ui = NetworkRemoteSettingsPage GetAllPresets →
      (Load app allAddresses s rand ui).1.format.currentIndex =
        if All GetAllPresets = [] then -1 else 0 := by
  have e : (Load app allAddresses s rand ui).1.format = ui.format := by
    simp [Load, h]
  refine ⟨e, ?_⟩
  intro presets hp
  rw [e, hp]
  exact (constructor_format presets).2

/-- C6 as amended, on the page built from `examplePresets` and the identifier
`audio/x-vorbis`. -/
theorem Load_unmatched_selection_witness :
    (Load exampleApp [] vorbisSettings countingRand
      (NetworkRemoteSettingsPage examplePresets)).1.format =
    (NetworkRemoteSettingsPage examplePresets).format :=
  (Load_unmatched_selection exampleApp [] vorbisSettings countingRand
    (NetworkRemoteSettingsPage examplePresets) (by decide)).1

/-! ## Load, Save, Load (C2) -/

theorem splitAux_append (sep : QChar) (x rest cur : QString) (h : sep ∉ x) :
    splitAux sep (x ++ rest) cur = splitAux sep rest (x.reverse ++ cur) := by
  induction x generalizing cur with
  | nil => simp
  | cons c cs ih =>
    have hc : c ≠ sep := fun e => h (by simp [e])
    have hcs : sep ∉ cs := fun hm => h (List.mem_cons_of_mem _ hm)
    have e : splitAux sep (c :: cs ++ rest) cur = splitAux sep (cs ++ rest) (c :: cur) := by
      show splitAux sep (c :: (cs ++ rest)) cur = _
      rw [splitAux, if_neg hc]
    rw [e, ih _ hcs]
    simp

theorem split_join (sep : QChar) (l : List QString) (hl : l ≠ []) (h : ∀ e ∈ l, sep ∉ e) :
    split (join [sep] l) sep = l := by
  induction l with
  | nil => exact absurd rfl hl
  | cons x xs ih =>
    have hx : sep ∉ x := h x (List.mem_cons_self _ _)
    cases xs with
    | nil =>
      have := splitAux_append sep x [] [] hx
      simp only [List.append_nil] at this
      simp [split, join, this, splitAux]
    | cons y ys =>
      have ih2 := ih (by simp) (fun e he => h e (List.mem_cons_of_mem _ he))
      have := splitAux_append sep x ([sep] ++ join [sep] (y :: ys)) [] hx
      simp only [split] at ih2 ⊢
      simp only [join, List.append_assoc]
      rw [this]
      simp [splitAux, ih2]

theorem Parse_join (l : List QString) (h : ∀ e ∈ l, cleanExtension e) :
    Parse (join [comma] l) = l := by
  rw [Parse_eq]
  cases l with
  | nil => decide
  | cons x xs =>
    rw [split_join comma (x :: xs) (by simp) (fun e he => (h e he).1)]
    have hm : (x :: xs).map trimmed = x :: xs := by
      conv_rhs => rw [← List.map_id (x :: xs)]
      exact List.map_congr_left (fun e he => (h e he).2.1)
    rw [hm, List.filter_eq_self]
    intro e he
    simpa [keepExtension] using (h e he).2.2

theorem findFormat_items (c d : QComboBox) (m : QString) (h : c.items = d.items)
    (fuel i : Nat) : findFormat c m fuel i = findFormat d m fuel i := by
  induction fuel generalizing i with
  | zero => rfl
  | succ n ih => simp only [findFormat, ih, itemData_natCast, h]

theorem IndexOf_items (c d : QComboBox) (m : QString) (h : c.items = d.items) :
    IndexOf c m = IndexOf d m := by
  simp only [IndexOf, QComboBox.count, h]
  exact findFormat_items c d m h _ _

theorem IndexOf_sound (c : QComboBox) (m : QString) (i : Nat) (h : IndexOf c m = some i) :
    (c.itemData (i : Int)).codec_mimetype_ = m := by
  unfold IndexOf at h
  rw [findFormat_some] at h
  exact h.2.2.1

theorem Load_format (app : Application) (allAddresses : List QHostAddress) (s : QSettings)
    (rand : QRand) (ui : Ui_NetworkRemoteSettingsPage) :
    (Load app allAddresses s rand ui).1.format =
      match IndexOf ui.format (last_output_format s) with
      | some i => ui.format.setCurrentIndex i
      | none => ui.format := rfl

theorem Load_format_items (app : Application) (allAddresses : List QHostAddress) (s : QSettings)
    (rand : QRand) (ui : Ui_NetworkRemoteSettingsPage) :
    (Load app allAddresses s rand ui).1.format.items = ui.format.items := by
  rw [Load_format]
  cases IndexOf ui.format (last_output_format s) <;> rfl

theorem outputFormatId_Save_Load (app : Application) (allAddresses : List QHostAddress)
    (s : QSettings) (rand : QRand) (ui : Ui_NetworkRemoteSettingsPage) :
    outputFormatId (Load app allAddresses (Save ui s) rand ui).1 = outputFormatId ui := by
  have hl : last_output_format (Save ui s) = outputFormatId ui := rfl
  unfold outputFormatId
  rw [Load_format, hl]
  cases h : IndexOf ui.format (outputFormatId ui) with
  | none => rfl
  | some i =>
    have := IndexOf_sound _ _ _ h
    simpa [QComboBox.setCurrentIndex, QComboBox.itemData, outputFormatId] using this

/-- C2 fails as stated: with the entry `toolongext` persisted under `files_music_extensions`,
the first `Load` shows `toolongext`, and after `Save` the next `Load` shows the empty text. -/
theorem round_trip_changes_extensions :
    (Load exampleApp [] longExtensionSettings countingRand setupUi).1.files_music_extensions =
      qs "toolongext" ∧
    (Load exampleApp []
        (Save (Load exampleApp [] longExtensionSettings countingRand setupUi).1
          longExtensionSettings)
        (Load exampleApp [] longExtensionSettings countingRand setupUi).2
        (Load exampleApp [] longExtensionSettings countingRand
          setupUi).1).1.files_music_extensions = [] := by
  decide

/-- C2 as amended: for every group, page and generator, after `Load`, `Save` and a second `Load`
the page shows the same values as after the first `Load` for `use_remote`, `port`,
`only_non_public_ip`, `use_auth_code`, `auth_code`, `allow_downloads`, `convert_lossless`,
`files_root_folder` and the codec mimetype of the selected format; the extension text becomes the
stored list of `Save` joined by commas, which is the text of the first `Load` when every entry of
the list read by the first `Load` has no comma, no white space at either end and a length from 1 to
7. -/
theorem Load_Save_Load (app : Application) (allAddresses later : List QHostAddress)
    (s : QSettings) (rand next : QRand) (ui : Ui_NetworkRemoteSettingsPage) :
    (Load app later (Save (Load app allAddresses s rand ui).1 s) next
        (Load app allAddresses s rand ui).1).1.use_remote =
      (Load app allAddresses s rand ui).1.use_remote ∧
    (Load app later (Save (Load app allAddresses s rand ui).1 s) next
        (Load app allAddresses s rand ui).1).1.remote_port =
      (Load app allAddresses s rand ui).1.remote_port ∧
    (Load app later (Save (Load app allAddresses s rand ui).1 s) next
        (Load app allAddresses s rand ui).1).1.only_non_public_ip =
      (Load app allAddresses s rand ui).1.only_non_public_ip ∧
    (Load app later (Save (Load app allAddresses s rand ui).1 s) next
        (Load app allAddresses s rand ui).1).1.use_auth_code =
      (Load app allAddresses s rand ui).1.use_auth_code ∧
    (Load app later (Save (Load app allAddresses s rand ui).1 s) next
        (Load app allAddresses s rand ui).1).1.auth_code =
      (Load app allAddresses s rand ui).1.auth_code ∧
    (Load app later (Save (Load app allAddresses s rand ui).1 s) next
        (Load app allAddresses s rand ui).1).1.allow_downloads =
      (Load app allAddresses s rand ui).1.allow_downloads ∧
    (Load app later (Save (Load app allAddresses s rand ui).1 s) next
        (Load app allAddresses s rand ui).1).1.convert_lossless =
      (Load app allAddresses s rand ui).1.convert_lossless ∧
    outputFormatId (Load app later (Save (Load app allAddresses s rand ui).1 s) next
        (Load app allAddresses s rand ui).1).1 =
      outputFormatId (Load app allAddresses s rand ui).1 ∧
    (Load app later (Save (Load app allAddresses s rand ui).1 s) next
        (Load app allAddresses s rand ui).1).1.files_root_folder =
      (Load app allAddresses s rand ui).1.files_root_folder ∧
    (Load app later (Save (Load app allAddresses s rand ui).1 s) next
        (Load app allAddresses s rand ui).1).1.files_music_extensions =
      join [comma] (Parse (Load app allAddresses s rand ui).1.files_music_extensions) ∧
    ((∀ e ∈ QSettings.value s.files_music_extensions app.kDefaultMusicExtensionsAllowedRemotely,
        cleanExtension e) →
      (Load app later (Save (Load app allAddresses s rand ui).1 s) next
          (Load app allAddresses s rand ui).1).1.files_music_extensions =
        (Load app allAddresses s rand ui).1.files_music_extensions) := by
  refine ⟨rfl, rfl, rfl, rfl, rfl, rfl, rfl, outputFormatId_Save_Load _ _ _ _ _, rfl, rfl, ?_⟩
  intro h
  show join [comma] (Parse (join [comma] _)) = join [comma] _
  rw [Parse_join _ h]


/-- C2 as amended, on a group with no key and the constants of Clementine: the built-in extension
list comes back unchanged. -/
theorem Load_Save_Load_witness :
    (Load exampleApp [] (Save (Load exampleApp [] emptySettings countingRand setupUi).1
        emptySettings) (Load exampleApp [] emptySettings countingRand setupUi).2
        (Load exampleApp [] emptySettings countingRand setupUi).1).1.files_music_extensions =
      (Load exampleApp [] emptySettings countingRand setupUi).1.files_music_extensions :=
  (Load_Save_Load exampleApp [] [] emptySettings countingRand
    (Load exampleApp [] emptySettings countingRand setupUi).2 setupUi).2.2.2.2.2.2.2.2.2.2
    (by decide)

/-! ## The sorted catalog (C3, C4) -/

/-! Every loop of the sort that is bounded by a counter has stopped before the counter runs out:
a larger counter gives the same result. -/

section StdSortFuel

variable {α : Type}

theorem lgAux_eq_log2 (fuel n : Nat) (h : n ≤ fuel) : lgAux fuel n = Nat.log2 n := by
  induction fuel generalizing n with
  | zero =>
    have : n = 0 := by omega
    subst this
    rw [Nat.log2]; rfl
  | succ f ih =>
    rw [Nat.log2]
    simp only [lgAux]
    split_ifs with h2
    · rw [ih (n / 2) (by omega)]
    · rfl

theorem lg_eq_log2 (n : Nat) : lg n = Nat.log2 n := lgAux_eq_log2 n n (le_refl n)

theorem le_scan_up (comp : α → α → Bool) (a : List α) (pivot fuel first : Nat) :
    first ≤ scan_up comp a pivot fuel first := by
  induction fuel generalizing first with
  | zero => exact le_refl _
  | succ f ih =>
    simp only [scan_up]
    split_ifs
    · exact Nat.le_trans (Nat.le_succ first) (ih (first + 1))
    · exact le_refl _

theorem scan_up_fuel (comp : α → α → Bool) (a : List α) (pivot fuel first : Nat)
    (h : a.length ≤ first + fuel) (k : Nat) :
    scan_up comp a pivot (fuel + k) first = scan_up comp a pivot fuel first := by
  induction fuel generalizing first with
  | zero =>
    have hnone : a[first]? = none := List.getElem?_eq_none (by omega)
    cases k with
    | zero => rfl
    | succ k => simp [scan_up, compAt, hnone]
  | succ f ih =>
    rw [show f + 1 + k = (f + k) + 1 by omega]
    simp only [scan_up]
    split_ifs
    · exact ih (first + 1) (by omega)
    · rfl

theorem scan_down_le (comp : α → α → Bool) (a : List α) (pivot last : Nat) :
    scan_down comp a pivot last ≤ last := by
  induction last with
  | zero => exact le_refl _
  | succ l ih =>
    simp only [scan_down]
    split_ifs
    · exact Nat.le_trans ih (Nat.le_succ l)
    · exact le_refl _

theorem unguarded_partition_fuel (comp : α → α → Bool) (pivot fuel : Nat) (a : List α)
    (first last : Nat) (h0 : first ≤ last) (h : last < first + fuel) (k : Nat) :
    unguarded_partition comp pivot (fuel + k) a first last =
      unguarded_partition comp pivot fuel a first last := by
  induction fuel generalizing a first last with
  | zero => omega
  | succ f ih =>
    rw [show f + 1 + k = (f + k) + 1 by omega]
    simp only [unguarded_partition]
    split_ifs with hc
    · have h1 := le_scan_up comp a pivot (a.length - first) first
      have h2 := scan_down_le comp a pivot (last - 1)
      exact ih _ _ _ (by omega) (by omega)
    · rfl

theorem push_heap_fuel (comp : α → α → Bool) (first topIndex : Nat) (value : α) (fuel : Nat)
    (a : List α) (holeIndex : Nat) (h : holeIndex ≤ fuel) (k : Nat) :
    push_heap comp first topIndex value (fuel + k) a holeIndex =
      push_heap comp first topIndex value fuel a holeIndex := by
  induction fuel generalizing a holeIndex with
  | zero =>
    have h0 : holeIndex = 0 := by omega
    subst h0
    cases k with
    | zero => rfl
    | succ k =>
      simp only [Nat.zero_add, push_heap]
      cases a[first + (0 - 1) / 2]? <;> simp
  | succ f ih =>
    rw [show f + 1 + k = (f + k) + 1 by omega]
    simp only [push_heap]
    cases a[first + (holeIndex - 1) / 2]? with
    | none => rfl
    | some p =>
      simp only []
      split_ifs with hc
      · exact ih _ _ (by omega)
      · rfl

theorem adjust_heap_down_fuel (comp : α → α → Bool) (first len fuel : Nat) (a : List α)
    (holeIndex : Nat) (h : len ≤ holeIndex + fuel) (k : Nat) :
    adjust_heap_down comp first len (fuel + k) a holeIndex =
      adjust_heap_down comp first len fuel a holeIndex := by
  induction fuel generalizing a holeIndex with
  | zero =>
    have hn : ¬ holeIndex < (len - 1) / 2 := by omega
    cases k with
    | zero => rfl
    | succ k => simp [adjust_heap_down, hn]
  | succ f ih =>
    rw [show f + 1 + k = (f + k) + 1 by omega]
    simp only [adjust_heap_down]
    split_ifs with h1 h2
    · cases a[first + (2 * (holeIndex + 1) - 1)]? with
      | none => rfl
      | some x => exact ih _ _ (by omega)
    · cases a[first + 2 * (holeIndex + 1)]? with
      | none => rfl
      | some x => exact ih _ _ (by omega)
    · rfl

theorem adjust_heap_down_hole (comp : α → α → Bool) (first len fuel : Nat) (a : List α)
    (holeIndex : Nat) (h : holeIndex < len) :
    (adjust_heap_down comp first len fuel a holeIndex).2 < len := by
  induction fuel generalizing a holeIndex with
  | zero => exact h
  | succ f ih =>
    simp only [adjust_heap_down]
    split_ifs with h1 h2
    · cases a[first + (2 * (holeIndex + 1) - 1)]? with
      | none => exact h
      | some x => exact ih _ _ (by omega)
    · cases a[first + 2 * (holeIndex + 1)]? with
      | none => exact h
      | some x => exact ih _ _ (by omega)
    · exact h

end StdSortFuel

section StdSortPerm

variable {α : Type}

theorem cons_set_perm (t : List α) (j : Nat) (x v : α) (h : t[j]? = some x) :
    (x :: t.set j v).Perm (v :: t) := by
  induction t generalizing j with
  | nil => simp at h
  | cons y t ih =>
    cases j with
    | zero =>
      simp only [List.getElem?_cons_zero, Option.some.injEq] at h
      subst h
      simpa using List.Perm.swap v y t
    | succ j =>
      simp only [List.getElem?_cons_succ] at h
      simp only [List.set_cons_succ]
      exact (List.Perm.swap y x _).trans (((ih j h).cons y).trans (List.Perm.swap v y t))

theorem set_set_perm (l : List α) (i j : Nat) (x v : α) (h : l[j]? = some x)
    (hi : i < l.length) : ((l.set i x).set j v).Perm (l.set i v) := by
  induction l generalizing i j with
  | nil => simp at h
  | cons y t ih =>
    cases i with
    | zero =>
      cases j with
      | zero => simp
      | succ j =>
        simp only [List.getElem?_cons_succ] at h
        simpa using cons_set_perm t j x v h
    | succ i =>
      have hi2 : i < t.length := by simpa using hi
      cases j with
      | zero =>
        simp only [List.getElem?_cons_zero, Option.some.injEq] at h
        subst h
        simp only [List.set_cons_succ, List.set_cons_zero]
        have := cons_set_perm (t.set i v) i v y (by simp [hi2])
        simpa using this
      | succ j =>
        simp only [List.getElem?_cons_succ] at h
        simp only [List.set_cons_succ]
        exact (ih i j h hi2).cons y

theorem set_getElem?_self (l : List α) (i : Nat) (x : α) (h : l[i]? = some x) :
    l.set i x = l := by
  apply List.ext_getElem?
  intro n
  by_cases e : i = n
  · subst e
    have hi : i < l.length := (List.getElem?_eq_some_iff.mp h).1
    simp [hi, h]
  · simp [List.getElem?_set_ne e]

theorem lt_length_of_getElem? (l : List α) (i : Nat) (x : α) (h : l[i]? = some x) :
    i < l.length := (List.getElem?_eq_some_iff.mp h).1

theorem iter_swap_perm (a : List α) (i j : Nat) : (iter_swap a i j).Perm a := by
  unfold iter_swap
  cases hi : a[i]? with
  | none => exact List.Perm.refl _
  | some x =>
    cases hj : a[j]? with
    | none => exact List.Perm.refl _
    | some y =>
      have := set_set_perm a i j y x hj (lt_length_of_getElem? a i x hi)
      rw [set_getElem?_self a i x hi] at this
      exact this

theorem move_median_to_first_perm (comp : α → α → Bool) (arr : List α) (result a b c : Nat) :
    (move_median_to_first comp arr result a b c).Perm arr := by
  unfold move_median_to_first
  split_ifs <;> exact iter_swap_perm _ _ _

theorem unguarded_partition_perm (comp : α → α → Bool) (pivot fuel : Nat) (a : List α)
    (first last : Nat) : (unguarded_partition comp pivot fuel a first last).1.Perm a := by
  induction fuel generalizing a first last with
  | zero => exact List.Perm.refl _
  | succ n ih =>
    simp only [unguarded_partition]
    split_ifs
    · exact (ih _ _ _).trans (iter_swap_perm _ _ _)
    · exact List.Perm.refl _

theorem unguarded_partition_pivot_perm (comp : α → α → Bool) (a : List α) (first last : Nat) :
    (unguarded_partition_pivot comp a first last).1.Perm a := by
  unfold unguarded_partition_pivot
  exact (unguarded_partition_perm _ _ _ _ _ _).trans (move_median_to_first_perm _ _ _ _ _ _)

theorem push_heap_perm (comp : α → α → Bool) (first topIndex : Nat) (value : α) (fuel : Nat)
    (a : List α) (holeIndex : Nat) (h : first + holeIndex < a.length) :
    (push_heap comp first topIndex value fuel a holeIndex).Perm (a.set (first + holeIndex) value) := by
  induction fuel generalizing a holeIndex with
  | zero => exact List.Perm.refl _
  | succ n ih =>
    simp only [push_heap]
    cases hp : a[first + (holeIndex - 1) / 2]? with
    | none => exact List.Perm.refl _
    | some p =>
      simp only []
      split_ifs
      · have hlt := lt_length_of_getElem? a _ p hp
        exact (ih (a.set (first + holeIndex) p) ((holeIndex - 1) / 2) (by simpa using hlt)).trans
          (set_set_perm a _ _ p value hp h)
      · exact List.Perm.refl _

theorem adjust_heap_down_spec (comp : α → α → Bool) (first len fuel : Nat) (a : List α)
    (holeIndex : Nat) (h : first + holeIndex < a.length) :
    first + (adjust_heap_down comp first len fuel a holeIndex).2 <
        (adjust_heap_down comp first len fuel a holeIndex).1.length ∧
    ∀ v, ((adjust_heap_down comp first len fuel a holeIndex).1.set
        (first + (adjust_heap_down comp first len fuel a holeIndex).2) v).Perm
      (a.set (first + holeIndex) v) := by
  induction fuel generalizing a holeIndex with
  | zero => exact ⟨h, fun v => List.Perm.refl _⟩
  | succ n ih =>
    simp only [adjust_heap_down]
    split_ifs with h1 h2
    · cases hx : a[first + (2 * (holeIndex + 1) - 1)]? with
      | none => exact ⟨h, fun v => List.Perm.refl _⟩
      | some x =>
        simp only []
        have hlt := lt_length_of_getElem? a _ x hx
        have := ih (a.set (first + holeIndex) x) (2 * (holeIndex + 1) - 1) (by simpa using hlt)
        exact ⟨this.1, fun v => (this.2 v).trans (set_set_perm a _ _ x v hx h)⟩
    · cases hx : a[first + (2 * (holeIndex + 1))]? with
      | none => exact ⟨h, fun v => List.Perm.refl _⟩
      | some x =>
        simp only []
        have hlt := lt_length_of_getElem? a _ x hx
        have := ih (a.set (first + holeIndex) x) (2 * (holeIndex + 1)) (by simpa using hlt)
        exact ⟨this.1, fun v => (this.2 v).trans (set_set_perm a _ _ x v hx h)⟩
    · exact ⟨h, fun v => List.Perm.refl _⟩

theorem adjust_heap_perm (comp : α → α → Bool) (a : List α) (first holeIndex len : Nat)
    (value : α) (h : first + holeIndex < a.length) :
    (adjust_heap comp a first holeIndex len value).Perm (a.set (first + holeIndex) value) := by
  unfold adjust_heap
  have hd := adjust_heap_down_spec comp first len len a holeIndex h
  generalize adjust_heap_down comp first len len a holeIndex = down at hd
  simp only []
  split_ifs with hc
  · cases hx : down.1[first + (2 * (down.2 + 1) - 1)]? with
    | none => exact (push_heap_perm _ _ _ _ _ _ _ hd.1).trans (hd.2 value)
    | some x =>
      simp only []
      have hlt := lt_length_of_getElem? _ _ x hx
      exact ((push_heap_perm _ _ _ _ _ _ _ (by simpa using hlt)).trans
        (set_set_perm down.1 _ _ x value hx hd.1)).trans (hd.2 value)
  · exact (push_heap_perm _ _ _ _ _ _ _ hd.1).trans (hd.2 value)

theorem pop_heap_perm (comp : α → α → Bool) (a : List α) (first last result : Nat) :
    (pop_heap comp a first last result).Perm a := by
  unfold pop_heap
  cases hr : a[result]? with
  | none => exact List.Perm.refl _
  | some value =>
    cases hf : a[first]? with
    | none => exact List.Perm.refl _
    | some top =>
      simp only []
      have hlt := lt_length_of_getElem? a _ top hf
      have h1 := adjust_heap_perm comp (a.set result top) first 0 (last - first) value
        (by simpa using hlt)
      have h2 := set_set_perm a result first top value hf (lt_length_of_getElem? a _ value hr)
      rw [set_getElem?_self a result value hr] at h2
      exact h1.trans (by simpa using h2)

theorem make_heap_loop_perm (comp : α → α → Bool) (first len parent : Nat) (a : List α) :
    (make_heap_loop comp first len parent a).Perm a := by
  induction parent generalizing a with
  | zero =>
    unfold make_heap_loop
    cases hv : a[first + 0]? with
    | none => exact List.Perm.refl _
    | some value =>
      simp only []
      have := adjust_heap_perm comp a first 0 len value (lt_length_of_getElem? a _ value hv)
      rw [set_getElem?_self a _ value hv] at this
      exact this
  | succ p ih =>
    unfold make_heap_loop
    cases hv : a[first + (p + 1)]? with
    | none => exact List.Perm.refl _
    | some value =>
      simp only []
      have := adjust_heap_perm comp a first (p + 1) len value
        (lt_length_of_getElem? a _ value hv)
      rw [set_getElem?_self a _ value hv] at this
      exact (ih _).trans this

theorem make_heap_perm (comp : α → α → Bool) (a : List α) (first last : Nat) :
    (make_heap comp a first last).Perm a := by
  unfold make_heap
  split_ifs
  · exact List.Perm.refl _
  · exact make_heap_loop_perm _ _ _ _ _

theorem heap_select_loop_perm (comp : α → α → Bool) (first middle fuel : Nat) (a : List α)
    (i : Nat) : (heap_select_loop comp first middle fuel a i).Perm a := by
  induction fuel generalizing a i with
  | zero => exact List.Perm.refl _
  | succ n ih =>
    simp only [heap_select_loop]
    split_ifs
    · exact (ih _ _).trans (pop_heap_perm _ _ _ _ _)
    · exact ih _ _

theorem sort_heap_perm (comp : α → α → Bool) (first n : Nat) (a : List α) :
    (sort_heap comp first n a).Perm a := by
  induction n generalizing a with
  | zero => exact List.Perm.refl _
  | succ n ih =>
    simp only [sort_heap]
    split_ifs
    · exact (ih _).trans (pop_heap_perm _ _ _ _ _)
    · exact List.Perm.refl _

theorem partial_sort_perm (comp : α → α → Bool) (a : List α) (first middle last : Nat) :
    (partial_sort comp a first middle last).Perm a := by
  unfold partial_sort heap_select
  exact (sort_heap_perm _ _ _ _).trans
    ((heap_select_loop_perm _ _ _ _ _ _).trans (make_heap_perm _ _ _ _))

theorem introsort_loop_perm (comp : α → α → Bool) (depth_limit : Nat) (a : List α)
    (first last : Nat) : (introsort_loop comp depth_limit a first last).Perm a := by
  induction depth_limit generalizing a first last with
  | zero =>
    unfold introsort_loop
    split_ifs
    · exact partial_sort_perm _ _ _ _ _
    · exact List.Perm.refl _
  | succ d ih =>
    unfold introsort_loop
    split_ifs
    · exact (ih _ _ _).trans ((ih _ _ _).trans (unguarded_partition_pivot_perm _ _ _ _))
    · exact List.Perm.refl _

end StdSortPerm

section StdSortInsertion

variable {α : Type}

theorem getElem?_mid (pre : List α) (v : α) (post : List α) :
    (pre ++ v :: post)[pre.length]? = some v := by
  induction pre with
  | nil => simp
  | cons x xs ih => simpa using ih

theorem set_mid (pre : List α) (v w : α) (post : List α) :
    (pre ++ v :: post).set pre.length w = pre ++ w :: post := by
  induction pre with
  | nil => rfl
  | cons x xs ih => simp [ih]

theorem unguarded_linear_insert_loop_eq (comp : α → α → Bool) (val : α) (pre : List α) :
    ∀ (y : α) (post : List α),
      unguarded_linear_insert_loop comp val pre.length (pre ++ y :: post) =
        linear_insert comp pre val ++ post := by
  induction pre using List.reverseRecOn with
  | nil =>
    intro y post
    simp [unguarded_linear_insert_loop, linear_insert, insertRev]
  | append_singleton pre x ih =>
    intro y post
    have hlen : (pre ++ [x]).length = pre.length + 1 := by simp
    have hx : (pre ++ [x] ++ y :: post)[pre.length]? = some x := by
      have := getElem?_mid pre x (y :: post)
      simpa using this
    rw [hlen]
    simp only [unguarded_linear_insert_loop, hx]
    by_cases hc : comp val x = true
    · have hset : (pre ++ [x] ++ y :: post).set (pre.length + 1) x = pre ++ x :: (x :: post) := by
        have := set_mid (pre ++ [x]) y x post
        simp
      rw [if_pos hc, hset, ih x (x :: post)]
      simp [linear_insert, insertRev, hc]
    · have hset : (pre ++ [x] ++ y :: post).set (pre.length + 1) val =
          pre ++ [x] ++ val :: post := by
        have := set_mid (pre ++ [x]) y val post
        simp
      rw [if_neg hc, hset]
      simp [linear_insert, insertRev, hc]

theorem unguarded_linear_insert_eq (comp : α → α → Bool) (pre : List α) (val : α)
    (post : List α) :
    unguarded_linear_insert comp (pre ++ val :: post) pre.length =
      linear_insert comp pre val ++ post := by
  unfold unguarded_linear_insert
  have : (pre ++ val :: post)[pre.length]? = some val := getElem?_mid pre val post
  rw [this]
  exact unguarded_linear_insert_loop_eq comp val pre val post

theorem insertion_step_eq (comp : α → α → Bool) (x : α) (pre : List α) (val : α)
    (post : List α) :
    (if compAt comp (x :: pre ++ val :: post) (pre.length + 1) 0 then
        match (x :: pre ++ val :: post)[pre.length + 1]? with
        | some v => (move_backward (x :: pre ++ val :: post) 0 (pre.length + 1)
            (pre.length + 1 + 1)).set 0 v
        | none => x :: pre ++ val :: post
      else unguarded_linear_insert comp (x :: pre ++ val :: post) (pre.length + 1)) =
      insert_step comp (x :: pre) val ++ post := by
  have hv : (x :: pre ++ val :: post)[pre.length + 1]? = some val :=
    getElem?_mid (x :: pre) val post
  have hc : compAt comp (x :: pre ++ val :: post) (pre.length + 1) 0 = comp val x := by
    simp only [compAt, hv]
    simp
  rw [hc, hv]
  by_cases h : comp val x = true
  · simp only [h, if_true, insert_step]
    simp [move_backward, List.take_append_eq_append_take]
  · simp only [h, insert_step]
    have := unguarded_linear_insert_eq comp (x :: pre) val post
    simpa using this

theorem insertRev_length (comp : α → α → Bool) (val : α) (l : List α) :
    (insertRev comp val l).length = l.length + 1 := by
  induction l with
  | nil => rfl
  | cons x xs ih =>
    simp only [insertRev]
    split_ifs <;> simp [ih]

theorem linear_insert_length (comp : α → α → Bool) (pre : List α) (val : α) :
    (linear_insert comp pre val).length = pre.length + 1 := by
  simp [linear_insert, insertRev_length]

theorem insert_step_length (comp : α → α → Bool) (pre : List α) (val : α) :
    (insert_step comp pre val).length = pre.length + 1 := by
  cases pre with
  | nil => rfl
  | cons x xs =>
    simp only [insert_step]
    split_ifs
    · simp
    · exact linear_insert_length _ _ _

theorem foldl_insert_step_length (comp : α → α → Bool) (l p : List α) :
    (l.foldl (insert_step comp) p).length = p.length + l.length := by
  induction l generalizing p with
  | nil => rfl
  | cons v vs ih => rw [List.foldl_cons, ih, insert_step_length]; simp; omega

theorem insertion_sort_loop_eq (comp : α → α → Bool) (rest : List α) :
    ∀ (p : List α) (fuel : Nat), p ≠ [] → fuel ≤ rest.length →
      insertion_sort_loop comp 0 fuel (p ++ rest) p.length =
        (rest.take fuel).foldl (insert_step comp) p ++ rest.drop fuel := by
  induction rest with
  | nil =>
    intro p fuel _ h
    have : fuel = 0 := by simpa using h
    subst this
    simp [insertion_sort_loop]
  | cons v rest ih =>
    intro p fuel hp h
    cases fuel with
    | zero => simp [insertion_sort_loop]
    | succ n =>
      have hn : n ≤ rest.length := by simpa using h
      cases p with
      | nil => exact absurd rfl hp
      | cons x pre =>
        simp only [insertion_sort_loop, List.length_cons]
        rw [insertion_step_eq comp x pre v rest]
        have hl := insert_step_length comp (x :: pre) v
        have hne : insert_step comp (x :: pre) v ≠ [] := by
          intro e; rw [e] at hl; simp at hl
        have := ih (insert_step comp (x :: pre) v) n hne hn
        rw [hl] at this
        simpa using this

theorem unguarded_insertion_sort_eq (comp : α → α → Bool) (rest : List α) :
    ∀ (p : List α) (fuel : Nat), fuel ≤ rest.length →
      unguarded_insertion_sort comp fuel (p ++ rest) p.length =
        (rest.take fuel).foldl (linear_insert comp) p ++ rest.drop fuel := by
  induction rest with
  | nil =>
    intro p fuel h
    have : fuel = 0 := by simpa using h
    subst this
    simp [unguarded_insertion_sort]
  | cons v rest ih =>
    intro p fuel h
    cases fuel with
    | zero => simp [unguarded_insertion_sort]
    | succ n =>
      have hn : n ≤ rest.length := by simpa using h
      simp only [unguarded_insertion_sort]
      rw [unguarded_linear_insert_eq comp p v rest]
      have := ih (linear_insert comp p v) n hn
      rw [linear_insert_length] at this
      simpa using this

/-- The final pass in list form. -/
theorem final_insertion_sort_eq (comp : α → α → Bool) (x : α) (xs : List α) :
    final_insertion_sort comp (x :: xs) 0 (x :: xs).length =
      if (x :: xs).length > 16 then
        (xs.drop 15).foldl (linear_insert comp) ((xs.take 15).foldl (insert_step comp) [x])
      else xs.foldl (insert_step comp) [x] := by
  unfold final_insertion_sort insertion_sort
  have h0 := insertion_sort_loop_eq comp xs [x] (min 15 xs.length) (by simp) (Nat.min_le_right _ _)
  simp only [List.length_cons, Nat.sub_zero, Nat.zero_add]
  by_cases h : xs.length + 1 > 16
  · have hmin : min 15 xs.length = 15 := by omega
    rw [hmin] at h0
    simp only [h, if_true, if_neg (show ¬ (0 = 16) by decide)]
    have e : 16 - (0 + 1) = 15 := rfl
    simp only [e]
    have h0' : insertion_sort_loop comp 0 15 (x :: xs) 1 =
        (xs.take 15).foldl (insert_step comp) [x] ++ xs.drop 15 := by simpa using h0
    rw [h0']
    have hl : ((xs.take 15).foldl (insert_step comp) [x]).length = 16 := by
      rw [foldl_insert_step_length]; simp; omega
    have := unguarded_insertion_sort_eq comp (xs.drop 15)
      ((xs.take 15).foldl (insert_step comp) [x]) (xs.length + 1 - 16) (by simp)
    rw [hl] at this
    rw [this]
    have ht : (xs.drop 15).take (xs.length + 1 - 16) = xs.drop 15 := by
      apply List.take_of_length_le; simp
    have hd : (xs.drop 15).drop (xs.length + 1 - 16) = [] := by
      apply List.drop_of_length_le; simp
    rw [ht, hd]; simp
  · have hmin : min 15 xs.length = xs.length := by omega
    rw [hmin] at h0
    simp only [h, if_false]
    have hne : ¬ (0 = xs.length + 1) := by omega
    rw [if_neg hne]
    have e : xs.length + 1 - (0 + 1) = xs.length := by omega
    rw [e]
    simpa using h0

end StdSortInsertion

section StdSortOrder

variable {α : Type}

theorem insertRev_perm (comp : α → α → Bool) (val : α) (l : List α) :
    (insertRev comp val l).Perm (val :: l) := by
  induction l with
  | nil => exact List.Perm.refl _
  | cons x xs ih =>
    simp only [insertRev]
    split_ifs
    · exact (ih.cons x).trans (List.Perm.swap val x xs)
    · exact List.Perm.refl _

theorem linear_insert_perm (comp : α → α → Bool) (pre : List α) (val : α) :
    (linear_insert comp pre val).Perm (val :: pre) := by
  unfold linear_insert
  exact (List.reverse_perm _).trans
    ((insertRev_perm comp val pre.reverse).trans ((List.reverse_perm pre).cons val))

theorem insert_step_perm (comp : α → α → Bool) (pre : List α) (val : α) :
    (insert_step comp pre val).Perm (val :: pre) := by
  cases pre with
  | nil => exact List.Perm.refl _
  | cons x xs =>
    simp only [insert_step]
    split_ifs
    · exact List.Perm.refl _
    · exact linear_insert_perm _ _ _

theorem foldl_insert_perm (f : List α → α → List α)
    (hf : ∀ pre val, (f pre val).Perm (val :: pre)) (l p : List α) :
    (l.foldl f p).Perm (p ++ l) := by
  induction l generalizing p with
  | nil => simp
  | cons v vs ih =>
    rw [List.foldl_cons]
    refine (ih _).trans ?_
    refine ((hf p v).append_right vs).trans ?_
    simpa using (@List.perm_middle _ v p vs).symm

theorem insertRev_sorted (comp : α → α → Bool) (h : StrictWeakOrder comp) (val : α)
    (l : List α) (hl : l.Pairwise (fun x y => comp x y = false)) :
    (insertRev comp val l).Pairwise (fun x y => comp x y = false) := by
  induction l with
  | nil => simp [insertRev]
  | cons x xs ih =>
    rw [List.pairwise_cons] at hl
    simp only [insertRev]
    split_ifs with hc
    · rw [List.pairwise_cons]
      refine ⟨?_, ih hl.2⟩
      intro z hz
      rcases List.mem_cons.mp ((insertRev_perm comp val xs).mem_iff.mp hz) with e | hm
      · subst e
        cases hxz : comp x z with
        | false => rfl
        | true =>
          have := h.trans _ _ _ hc hxz
          rw [h.irrefl] at this
          exact absurd this (by simp)
      · exact hl.1 z hm
    · rw [List.pairwise_cons]
      refine ⟨?_, List.pairwise_cons.mpr hl⟩
      intro z hz
      have hvx : comp val x = false := by simpa using hc
      rcases List.mem_cons.mp hz with e | hm
      · rw [e]; exact hvx
      · cases hvz : comp val z with
        | false => rfl
        | true =>
          rcases h.split val x z hvz with h1 | h1
          · rw [hvx] at h1; exact absurd h1 (by simp)
          · rw [hl.1 z hm] at h1; exact absurd h1 (by simp)

theorem linear_insert_sorted (comp : α → α → Bool) (h : StrictWeakOrder comp) (pre : List α)
    (val : α) (hp : SortedBy comp pre) : SortedBy comp (linear_insert comp pre val) := by
  unfold SortedBy linear_insert at *
  rw [List.pairwise_reverse]
  apply insertRev_sorted comp h
  rw [List.pairwise_reverse]
  exact hp

theorem insert_step_sorted (comp : α → α → Bool) (h : StrictWeakOrder comp) (pre : List α)
    (val : α) (hp : SortedBy comp pre) : SortedBy comp (insert_step comp pre val) := by
  cases pre with
  | nil => simp [insert_step, SortedBy]
  | cons x xs =>
    simp only [insert_step]
    split_ifs with hc
    · unfold SortedBy at *
      rw [List.pairwise_cons]
      refine ⟨?_, hp⟩
      rw [List.pairwise_cons] at hp
      have hxv : comp x val = false := by
        cases hxv : comp x val with
        | false => rfl
        | true =>
          have := h.trans _ _ _ hc hxv
          rw [h.irrefl] at this
          exact absurd this (by simp)
      intro z hz
      rcases List.mem_cons.mp hz with e | hm
      · rw [e]; exact hxv
      · cases hzv : comp z val with
        | false => rfl
        | true =>
          rcases h.split z x val hzv with h1 | h1
          · rw [hp.1 z hm] at h1; exact absurd h1 (by simp)
          · rw [hxv] at h1; exact absurd h1 (by simp)
    · exact linear_insert_sorted comp h _ _ hp

theorem foldl_sorted (comp : α → α → Bool) (f : List α → α → List α)
    (hf : ∀ pre val, SortedBy comp pre → SortedBy comp (f pre val)) (l p : List α)
    (hp : SortedBy comp p) : SortedBy comp (l.foldl f p) := by
  induction l generalizing p with
  | nil => exact hp
  | cons v vs ih => exact ih _ (hf p v hp)

/-! Stability of the insertions. -/

theorem equiv_not_comp (comp : α → α → Bool) (h : StrictWeakOrder comp) (k x y : α)
    (hx : equiv comp k x = true) (hy : equiv comp k y = true) : comp x y = false := by
  simp only [equiv, Bool.and_eq_true, Bool.not_eq_true'] at hx hy
  cases hxy : comp x y with
  | false => rfl
  | true =>
    rcases h.split x k y hxy with h1 | h1
    · rw [hx.2] at h1; exact absurd h1 (by simp)
    · rw [hy.1] at h1; exact absurd h1 (by simp)

theorem insertRev_filter (comp : α → α → Bool) (h : StrictWeakOrder comp) (k val : α)
    (l : List α) :
    (insertRev comp val l).filter (equiv comp k) =
      [val].filter (equiv comp k) ++ l.filter (equiv comp k) := by
  induction l with
  | nil => simp [insertRev]
  | cons x xs ih =>
    simp only [insertRev]
    split_ifs with hc
    · rw [List.filter_cons, ih]
      by_cases hx : equiv comp k x = true
      · by_cases hv : equiv comp k val = true
        · have := equiv_not_comp comp h k val x hv hx
          rw [hc] at this; exact absurd this (by simp)
        · simp [List.filter_cons, hx, hv]
      · simp [List.filter_cons, hx]
    · simp only [List.filter_cons, List.filter_nil]
      split_ifs <;> rfl

theorem linear_insert_filter (comp : α → α → Bool) (h : StrictWeakOrder comp) (k val : α)
    (pre : List α) :
    (linear_insert comp pre val).filter (equiv comp k) =
      pre.filter (equiv comp k) ++ [val].filter (equiv comp k) := by
  unfold linear_insert
  rw [List.filter_reverse, insertRev_filter comp h, List.reverse_append, List.filter_reverse,
    List.reverse_reverse]
  congr 1
  simp only [List.filter_cons, List.filter_nil]
  split_ifs <;> rfl

theorem insert_step_filter (comp : α → α → Bool) (h : StrictWeakOrder comp) (k val : α)
    (pre : List α) (hp : SortedBy comp pre) :
    (insert_step comp pre val).filter (equiv comp k) =
      pre.filter (equiv comp k) ++ [val].filter (equiv comp k) := by
  cases pre with
  | nil => simp [insert_step]
  | cons x xs =>
    simp only [insert_step]
    split_ifs with hc
    · by_cases hv : equiv comp k val = true
      · have hnone : (x :: xs).filter (equiv comp k) = [] := by
          rw [List.filter_eq_nil_iff]
          intro z hz hzk
          have hvz := equiv_not_comp comp h k val z hv hzk
          have hzx : comp z x = false := by
            rcases List.mem_cons.mp hz with e | hm
            · rw [e]; exact h.irrefl x
            · exact (List.pairwise_cons.mp hp).1 z hm
          rcases h.split val z x hc with h1 | h1
          · rw [hvz] at h1; exact absurd h1 (by simp)
          · rw [hzx] at h1; exact absurd h1 (by simp)
        rw [List.filter_cons_of_pos hv, hnone]
        simp [List.filter_cons, hv]
      · rw [List.filter_cons_of_neg hv]
        simp [List.filter_cons, hv]
    · exact linear_insert_filter comp h k val _

theorem foldl_insert_step_filter (comp : α → α → Bool) (h : StrictWeakOrder comp) (k : α)
    (l p : List α) (hp : SortedBy comp p) :
    (l.foldl (insert_step comp) p).filter (equiv comp k) =
      (p ++ l).filter (equiv comp k) := by
  induction l generalizing p with
  | nil => simp
  | cons v vs ih =>
    rw [List.foldl_cons, ih _ (insert_step_sorted comp h p v hp), List.filter_append,
      insert_step_filter comp h k v p hp]
    have : (v :: vs).filter (equiv comp k) =
        [v].filter (equiv comp k) ++ vs.filter (equiv comp k) := by
      rw [← List.filter_append]; rfl
    rw [List.filter_append, this, List.append_assoc]

/-! `std::sort` as a whole. -/

theorem std_sort_perm (comp : α → α → Bool) (a : List α) : (std_sort comp a).Perm a := by
  unfold std_sort
  split_ifs with h0
  · exact List.Perm.refl _
  · have hb := introsort_loop_perm comp (lg a.length * 2) a 0 a.length
    generalize introsort_loop comp (lg a.length * 2) a 0 a.length = b at hb
    rw [← hb.length_eq]
    cases b with
    | nil => exact absurd hb.length_eq.symm (by simpa using h0)
    | cons x xs =>
      rw [final_insertion_sort_eq]
      refine List.Perm.trans ?_ hb
      split_ifs
      · refine (foldl_insert_perm _ (linear_insert_perm comp) _ _).trans ?_
        refine ((foldl_insert_perm _ (insert_step_perm comp) _ _).append_right _).trans ?_
        simp
      · exact foldl_insert_perm _ (insert_step_perm comp) _ _

theorem std_sort_sorted (comp : α → α → Bool) (h : StrictWeakOrder comp) (a : List α) :
    SortedBy comp (std_sort comp a) := by
  unfold std_sort
  split_ifs with h0
  · have : a = [] := List.length_eq_zero.mp h0
    subst this
    exact List.Pairwise.nil
  · have hb := introsort_loop_perm comp (lg a.length * 2) a 0 a.length
    generalize introsort_loop comp (lg a.length * 2) a 0 a.length = b at hb
    rw [← hb.length_eq]
    cases b with
    | nil => exact absurd hb.length_eq.symm (by simpa using h0)
    | cons x xs =>
      rw [final_insertion_sort_eq]
      have h1 : SortedBy comp [x] := List.pairwise_singleton _ _
      split_ifs
      · exact foldl_sorted comp _ (fun p v => linear_insert_sorted comp h p v) _ _
          (foldl_sorted comp _ (fun p v => insert_step_sorted comp h p v) _ _ h1)
      · exact foldl_sorted comp _ (fun p v => insert_step_sorted comp h p v) _ _ h1

theorem std_sort_stable (comp : α → α → Bool) (h : StrictWeakOrder comp) (a : List α)
    (ha : a.length ≤ 16) (k : α) :
    (std_sort comp a).filter (equiv comp k) = a.filter (equiv comp k) := by
  unfold std_sort
  split_ifs with h0
  · rfl
  · have hi : introsort_loop comp (lg a.length * 2) a 0 a.length = a := by
      unfold introsort_loop
      rw [if_neg (by omega)]
    rw [hi]
    cases a with
    | nil => simp at h0
    | cons x xs =>
      rw [final_insertion_sort_eq, if_neg (by omega)]
      exact foldl_insert_step_filter comp h k xs [x] (List.pairwise_singleton _ _)

end StdSortOrder

theorem ucstrcmp_swap (a b : List Nat) : ucstrcmp b a = (ucstrcmp a b).swap := by
  induction a generalizing b with
  | nil => cases b <;> rfl
  | cons x xs ih =>
    cases b with
    | nil => rfl
    | cons y ys =>
      simp only [ucstrcmp]
      rcases Nat.lt_trichotomy x y with h | h | h
      · rw [if_neg (Nat.lt_asymm h), if_pos h, if_pos h]; rfl
      · subst h
        simp only [if_neg (Nat.lt_irrefl x)]
        exact ih ys
      · rw [if_pos h, if_neg (Nat.lt_asymm h), if_pos h]; rfl

theorem ucstrcmp_eq (a b : List Nat) (h : ucstrcmp a b = Ordering.eq) : a = b := by
  induction a generalizing b with
  | nil => cases b with
    | nil => rfl
    | cons y ys => simp [ucstrcmp] at h
  | cons x xs ih =>
    cases b with
    | nil => simp [ucstrcmp] at h
    | cons y ys =>
      simp only [ucstrcmp] at h
      by_cases h1 : x < y
      · rw [if_pos h1] at h; exact absurd h (by simp)
      · rw [if_neg h1] at h
        by_cases h2 : y < x
        · rw [if_pos h2] at h; exact absurd h (by simp)
        · rw [if_neg h2] at h
          have : x = y := Nat.le_antisymm (Nat.le_of_not_lt h2) (Nat.le_of_not_lt h1)
          rw [this, ih ys h]

theorem ucstrcmp_self (a : List Nat) : ucstrcmp a a = Ordering.eq := by
  induction a with
  | nil => rfl
  | cons x xs ih => simp [ucstrcmp, ih]

theorem ucstrcmp_cons_lt (x y : Nat) (xs ys : List Nat) :
    ucstrcmp (x :: xs) (y :: ys) = Ordering.lt ↔
      x < y ∨ (x = y ∧ ucstrcmp xs ys = Ordering.lt) := by
  simp only [ucstrcmp]
  rcases Nat.lt_trichotomy x y with h | h | h
  · rw [if_pos h]; simp [h]
  · subst h
    rw [if_neg (Nat.lt_irrefl x), if_neg (Nat.lt_irrefl x)]; simp
  · rw [if_neg (Nat.lt_asymm h), if_pos h]
    have : ¬ x < y := Nat.lt_asymm h
    have : x ≠ y := fun e => by rw [e] at h; exact Nat.lt_irrefl _ h
    simp [*]

theorem ucstrcmp_trans (a b c : List Nat) (h1 : ucstrcmp a b = Ordering.lt)
    (h2 : ucstrcmp b c = Ordering.lt) : ucstrcmp a c = Ordering.lt := by
  induction a generalizing b c with
  | nil =>
    cases b with
    | nil => simp [ucstrcmp] at h1
    | cons y ys =>
      cases c with
      | nil => simp [ucstrcmp] at h2
      | cons z zs => rfl
  | cons x xs ih =>
    cases b with
    | nil => simp [ucstrcmp] at h1
    | cons y ys =>
      cases c with
      | nil => simp [ucstrcmp] at h2
      | cons z zs =>
        rw [ucstrcmp_cons_lt] at h1 h2 ⊢
        rcases h1 with a1 | ⟨a1, a2⟩
        · rcases h2 with b1 | ⟨b1, _⟩
          · exact Or.inl (Nat.lt_trans a1 b1)
          · exact Or.inl (b1 ▸ a1)
        · rcases h2 with b1 | ⟨b1, b2⟩
          · exact Or.inl (a1 ▸ b1)
          · exact Or.inr ⟨a1.trans b1, ih ys zs a2 b2⟩

theorem QString_lt_iff (a b : QString) : QString_lt a b = true ↔ ucstrcmp a b = Ordering.lt := by
  simp [QString_lt]

theorem QString_lt_total (a b : QString) (h1 : QString_lt a b = false)
    (h2 : QString_lt b a = false) : a = b := by
  apply ucstrcmp_eq
  have e := ucstrcmp_swap a b
  cases hc : ucstrcmp a b with
  | lt => simp [QString_lt, hc] at h1
  | eq => rfl
  | gt =>
    rw [hc] at e
    have e2 : ucstrcmp b a = Ordering.lt := e
    simp [QString_lt, e2] at h2

theorem ComparePresetsByName_strictWeakOrder : StrictWeakOrder ComparePresetsByName where
  irrefl := fun x => by simp [ComparePresetsByName, QString_lt, ucstrcmp_self]
  trans := fun x y z h1 h2 => by
    simp only [ComparePresetsByName, QString_lt_iff] at *
    exact ucstrcmp_trans _ _ _ h1 h2
  split := fun x y z h => by
    simp only [ComparePresetsByName] at *
    cases hxy : QString_lt x.name_ y.name_ with
    | true => exact Or.inl rfl
    | false =>
      right
      cases hyz : QString_lt y.name_ z.name_ with
      | true => rfl
      | false =>
        exfalso
        -- y ≤ x and z ≤ y, so z ≤ x, against x < z
        rw [QString_lt_iff] at h
        cases hyx : QString_lt y.name_ x.name_ with
        | false =>
          have e := QString_lt_total _ _ hxy hyx
          rw [e] at h
          have := (QString_lt_iff _ _).mpr h
          rw [hyz] at this; exact absurd this (by simp)
        | true =>
          have := ucstrcmp_trans _ _ _ ((QString_lt_iff _ _).mp hyx) h
          have := (QString_lt_iff _ _).mpr this
          rw [hyz] at this; exact absurd this (by simp)

theorem equiv_ComparePresetsByName (k p : TranscoderPreset) :
    equiv ComparePresetsByName k p = true ↔ p.name_ = k.name_ := by
  simp only [equiv, ComparePresetsByName, Bool.and_eq_true, Bool.not_eq_true']
  constructor
  · rintro ⟨h1, h2⟩
    exact (QString_lt_total _ _ h1 h2).symm
  · intro e
    rw [e]
    simp [QString_lt, ucstrcmp_self]

theorem pairwise_adjacent {β : Type} (R : β → β → Prop) (l : List β) (h : l.Pairwise R)
    (i : Nat) (p q : β) (hp : l[i]? = some p) (hq : l[i + 1]? = some q) : R p q := by
  induction l generalizing i with
  | nil => simp at hp
  | cons x xs ih =>
    rw [List.pairwise_cons] at h
    cases i with
    | zero =>
      simp only [List.getElem?_cons_zero, Option.some.injEq] at hp
      simp only [Nat.zero_add] at hq
      have hq2 : xs[0]? = some q := by simpa using hq
      subst hp
      exact h.1 q (List.getElem?_mem hq2)
    | succ i =>
      simp only [List.getElem?_cons_succ] at hp hq
      exact ih h.2 i hp hq

/-- C3: for every preset list, the catalog built by the constructor is the list the combo box
holds, it is a permutation of the list supplied by the transcoder, and its names are in ascending
order of code units: in every adjacent pair, and in every pair, the later name is not less than
the earlier one. -/
theorem All_sorted_permutation (GetAllPresets : List TranscoderPreset) :
    (NetworkRemoteSettingsPage GetAllPresets).format.items.map (fun item => item.2) =
      All GetAllPresets ∧
    (All GetAllPresets).Perm GetAllPresets ∧
    (∀ i p q, (All GetAllPresets)[i]? = some p → (All GetAllPresets)[i + 1]? = some q →
      QString_lt q.name_ p.name_ = false) ∧
    (All GetAllPresets).Pairwise (fun p q => QString_lt q.name_ p.name_ = false) := by
  have hs := std_sort_sorted ComparePresetsByName ComparePresetsByName_strictWeakOrder
    GetAllPresets
  refine ⟨?_, std_sort_perm _ _, ?_, hs⟩
  · rw [(constructor_format GetAllPresets).1, List.map_map]
    exact List.map_id _
  · intro i p q hp hq
    exact pairwise_adjacent _ _ hs i p q hp hq

/-- C3 on `examplePresets`, listed as `MP3`, `Flac`: the catalog is `Flac`, `MP3`. -/
theorem All_sorted_permutation_witness :
    ((All examplePresets).map (fun p => p.name_) = [qs "Flac", qs "MP3"]) ∧
    (All examplePresets).Perm examplePresets :=
  ⟨by decide, (All_sorted_permutation examplePresets).2.1⟩

set_option maxRecDepth 100000 in
/-- C4 fails as stated: in `seventeenPresets` the two presets named `MP3` are listed first;
in the sorted catalog the second of them is at position 12 and the first at position 13. -/
theorem All_not_stable :
    mp3First.name_ = mp3Second.name_ ∧
    List.Sublist [mp3First, mp3Second] seventeenPresets ∧
    ¬ List.Sublist [mp3First, mp3Second] (All seventeenPresets) ∧
    (All seventeenPresets)[12]? = some mp3Second ∧
    (All seventeenPresets)[13]? = some mp3First := by
  decide

/-- C4 as amended: for every list of at most 16 presets (the length up to which `std::sort` of
libstdc++ is an insertion sort) and every two presets with equal names, when one comes before the
other in the list of the transcoder it also comes before it in the sorted catalog. -/
theorem All_stable_upto_16 (GetAllPresets : List TranscoderPreset)
    (h : GetAllPresets.length ≤ 16) (p q : TranscoderPreset) (hn : p.name_ = q.name_)
    (hpq : List.Sublist [p, q] GetAllPresets) : List.Sublist [p, q] (All GetAllPresets) := by
  have hst := std_sort_stable ComparePresetsByName ComparePresetsByName_strictWeakOrder
    GetAllPresets h p
  have hf : [p, q].filter (equiv ComparePresetsByName p) = [p, q] := by
    rw [List.filter_eq_self]
    intro r hr
    rw [equiv_ComparePresetsByName]
    simp only [List.mem_cons, List.mem_singleton, List.not_mem_nil, or_false] at hr
    rcases hr with e | e
    · rw [e]
    · rw [e, hn]
  have h1 := hpq.filter (equiv ComparePresetsByName p)
  rw [hf, ← hst] at h1
  exact h1.trans (List.filter_sublist _)

/-- C4 as amended, on two presets named `MP3` that differ in their encoder token: they keep
their order. -/
theorem All_stable_upto_16_witness :
    List.Sublist [mp3First, mp3Second] (All [mp3First, mp3Second]) :=
  All_stable_upto_16 [mp3First, mp3Second] (by decide) mp3First mp3Second (by decide)
    (by decide)
